import Mathlib

/-!
# RLE character device driver (`Module/rle_driver.c`)

A shallow embedding of the run-length codec (`compress_rle`, `decompress_rle`)
and of the per-file session operations (`dev_open`, `dev_release`,
`dev_write`, `dev_read`, `dev_ioctl`).

Conventions of the embedding:

* a `char` is a `Byte` (`Fin 256`); `(unsigned char)c` is `c.val` and
  `(char)n` is `to_char n` (reduction modulo 256);
* a C array (a `kmalloc` block, a user-space region) is the `List Byte` of its
  bytes; the length of the list is the size of the object.  Every access goes
  through `load` / `store`, which report `Fault.out_of_bounds` for an index
  outside the object;
* a `while` loop is a function recursive on a fuel counter; running out of
  fuel is the distinct fault `Fault.out_of_fuel`, and the theorems show that
  the fuel supplied by the top-level function always suffices;
* a function returns `Except Fault _`: `.ok` carries what the C function
  returns together with the memory it modified.
-/

namespace RLE

/-! ## Memory model -/

/-- One `char` of storage. -/
abbrev Byte := Fin 256

/-- The cast `(char)n` of an unsigned quantity: the low eight bits. -/
def to_char (n : Nat) : Byte := ⟨n % 256, Nat.mod_lt n (by decide)⟩

/-- Behaviours of the C code that have no defined result. -/
inductive Fault where
  | out_of_bounds
  | null_pointer
  | out_of_fuel
deriving DecidableEq

/-- The read `mem[i]` of an object `mem`. -/
def load (mem : List Byte) (i : Nat) : Except Fault Byte :=
  match mem.get? i with
  | some b => .ok b
  | none => .error Fault.out_of_bounds

/-- The assignment `mem[i] = v` on an object `mem`. -/
def store (mem : List Byte) (i : Nat) (v : Byte) : Except Fault (List Byte) :=
  if i < mem.length then .ok (mem.set i v) else .error Fault.out_of_bounds

/-- The call `memset(mem, 0, n)`. -/
def memset_zero (mem : List Byte) (n : Nat) : Except Fault (List Byte) :=
  if n ≤ mem.length then .ok (List.replicate n (0 : Byte) ++ mem.drop n)
  else .error Fault.out_of_bounds

/-! ## Constants -/

def MAX_BUFFER_SIZE : Nat := 4096

def EFAULT : Int := 14
def ENOMEM : Int := 12
def EINVAL : Int := 22
def ENOTTY : Int := 25

/-- The command number `_IOW('r', 1, int)` of the Linux generic ioctl encoding:
direction write (1) in bits 30-31, `sizeof(int)` = 4 in bits 16-29, the magic
`'r'` = 0x72 in bits 8-15 and the sequence number 1 in bits 0-7. -/
def RLE_SET_MODE : Nat := 1 * 2 ^ 30 + 4 * 2 ^ 16 + 0x72 * 2 ^ 8 + 1

/-- The operation modes, `enum rle_mode`. -/
inductive rle_mode where
  | RLE_MODE_COMPRESS
  | RLE_MODE_DECOMPRESS
deriving DecidableEq

/-- The integer value of an enumerator. -/
def rle_mode.toNat : rle_mode → Nat
  | .RLE_MODE_COMPRESS => 0
  | .RLE_MODE_DECOMPRESS => 1

/-! ## Codec -/

/-- The inner loop of `compress_rle`:
`while (i + run_length < input_len && input[i + run_length] == curr_char
        && run_length < 255) run_length++;`
The first argument is the fuel, the second the current `run_length`. -/
def compress_run (input : List Byte) (input_len i : Nat) (curr_char : Byte) :
    Nat → Nat → Except Fault Nat
  | 0, _ => .error Fault.out_of_fuel
  | fuel + 1, run_length =>
    if i + run_length < input_len then
      match load input (i + run_length) with
      | .error e => .error e
      | .ok c =>
        if c = curr_char ∧ run_length < 255 then
          compress_run input input_len i curr_char fuel (run_length + 1)
        else .ok run_length
    else .ok run_length

/-- The outer loop of `compress_rle`, from the state `(i, out_pos, output)`.
The result is the final `out_pos` and the final contents of `output`. -/
def compress_loop (input : List Byte) (input_len : Nat) :
    Nat → Nat → Nat → List Byte → Except Fault (Nat × List Byte)
  | 0, _, _, _ => .error Fault.out_of_fuel
  | fuel + 1, i, out_pos, output =>
    if i < input_len then
      match load input i with
      | .error e => .error e
      | .ok curr_char =>
        match compress_run input input_len i curr_char 255 1 with
        | .error e => .error e
        | .ok run_length =>
          match store output out_pos (to_char run_length) with
          | .error e => .error e
          | .ok output1 =>
            match store output1 (out_pos + 1) curr_char with
            | .error e => .error e
            | .ok output2 =>
              compress_loop input input_len fuel (i + run_length) (out_pos + 2) output2
    else .ok (out_pos, output)

/-- The function `compress_rle(input, input_len, output)`: the returned length
and the contents of `output` afterwards.  Every iteration of the outer loop
advances `i` by at least one, so `input_len + 1` tests of the loop condition
are enough. -/
def compress_rle (input : List Byte) (input_len : Nat) (output : List Byte) :
    Except Fault (Nat × List Byte) :=
  compress_loop input input_len (input_len + 1) 0 0 output

/-- The inner loop of `decompress_rle`:
`while (count-- > 0 && out_pos < MAX_BUFFER_SIZE) output[out_pos++] = value;`
recursive on `count` itself: at `count = 0` the first test fails; otherwise
`count` is decremented and the second test decides. -/
def decompress_run (value : Byte) : Nat → Nat → List Byte → Except Fault (Nat × List Byte)
  | 0, out_pos, output => .ok (out_pos, output)
  | count + 1, out_pos, output =>
    if out_pos < MAX_BUFFER_SIZE then
      match store output out_pos value with
      | .error e => .error e
      | .ok output1 => decompress_run value count (out_pos + 1) output1
    else .ok (out_pos, output)

/-- The outer loop of `decompress_rle`, from the state `(i, out_pos, output)`. -/
def decompress_loop (input : List Byte) (input_len : Nat) :
    Nat → Nat → Nat → List Byte → Except Fault (Nat × List Byte)
  | 0, _, _, _ => .error Fault.out_of_fuel
  | fuel + 1, i, out_pos, output =>
    if i + 1 < input_len then
      match load input i with
      | .error e => .error e
      | .ok count =>
        match load input (i + 1) with
        | .error e => .error e
        | .ok value =>
          match decompress_run value count.val out_pos output with
          | .error e => .error e
          | .ok (out_pos1, output1) =>
            decompress_loop input input_len fuel (i + 2) out_pos1 output1
    else .ok (out_pos, output)

/-- The function `decompress_rle(input, input_len, output)`: the returned length
and the contents of `output` afterwards. -/
def decompress_rle (input : List Byte) (input_len : Nat) (output : List Byte) :
    Except Fault (Nat × List Byte) :=
  decompress_loop input input_len (input_len + 1) 0 0 output

/-! ## Session state and transport -/

/-- The conversion of an accepted ioctl argument to the enumeration, as done by
the assignment `dev->mode = arg`. -/
def rle_mode.of_arg (arg : Nat) : rle_mode :=
  if arg = 0 then .RLE_MODE_COMPRESS else .RLE_MODE_DECOMPRESS

/-- The private data `struct rle_dev`.  `buffer` is `none` for a null pointer and
otherwise holds the bytes of the allocated block. -/
structure rle_dev where
  buffer : Option (List Byte)
  buffer_size : Nat
  mode : rle_mode
deriving DecidableEq

/-- The part of `struct file` the driver uses: `private_data`, `none` when null. -/
structure file where
  private_data : Option rle_dev
deriving DecidableEq

/-- The call `kmalloc(size, GFP_KERNEL)`: a null pointer when no memory is
available, a block of `size` bytes otherwise.  The initial contents of a block
are unspecified in C; every block of bytes the driver obtains is cleared by
`memset` before use, so the model hands out zero bytes. -/
def kmalloc (size : Nat) (avail : Bool) : Option (List Byte) :=
  if avail then some (List.replicate size (0 : Byte)) else none

/-- The call `copy_from_user(dst, src, n)`.  `src` is the readable user region
starting at the source pointer; the bytes that cannot be read are not copied
and their number is returned, the rest of the `n` destination bytes being
cleared. -/
def copy_from_user (dst src : List Byte) (n : Nat) : Except Fault (Nat × List Byte) :=
  if n ≤ dst.length then
    .ok (n - min n src.length,
      src.take (min n src.length) ++ List.replicate (n - min n src.length) (0 : Byte)
        ++ dst.drop n)
  else .error Fault.out_of_bounds

/-- The call `copy_to_user(dst, src, n)`.  `dst` is the writable user region
starting at the destination pointer; the number of bytes not copied is
returned. -/
def copy_to_user (dst src : List Byte) (n : Nat) : Except Fault (Nat × List Byte) :=
  if n ≤ src.length then
    .ok (n - min n dst.length, src.take (min n dst.length) ++ dst.drop (min n dst.length))
  else .error Fault.out_of_bounds

/-- The arguments `buf[0], buf[1], n > 2 ? buf[2] : 0, n > 3 ? buf[3] : 0`
evaluated for the debug `printk` of `dev_write` and `dev_read`. -/
def debug_peek (buf : List Byte) (n : Nat) : Except Fault Unit :=
  match load buf 0 with
  | .error e => .error e
  | .ok _ =>
    match load buf 1 with
    | .error e => .error e
    | .ok _ =>
      match (if n > 2 then load buf 2 else .ok 0) with
      | .error e => .error e
      | .ok _ =>
        match (if n > 3 then load buf 3 else .ok 0) with
        | .error e => .error e
        | .ok _ => .ok ()

/-! ## File operations -/

/-- The function `dev_open`.  `dev_avail` and `buf_avail` say whether the two
`kmalloc` calls find memory.  The result is the file afterwards and the
returned status. -/
def dev_open (filep : file) (dev_avail buf_avail : Bool) : Except Fault (file × Int) :=
  if ¬ dev_avail then .ok (filep, -ENOMEM)
  else
    match kmalloc MAX_BUFFER_SIZE buf_avail with
    | none => .ok (filep, -ENOMEM)
    | some block =>
      match memset_zero block MAX_BUFFER_SIZE with
      | .error e => .error e
      | .ok buf =>
        .ok ({ private_data := some { buffer := some buf, buffer_size := 0,
                                      mode := .RLE_MODE_COMPRESS } }, 0)

/-- The function `dev_write(filep, buffer, len, offset)`.  `buffer` is the
readable user region at the source pointer.  The result is the file afterwards
and the returned value. -/
def dev_write (filep : file) (buffer : List Byte) (len : Nat) : Except Fault (file × Int) :=
  match filep.private_data with
  | none => .ok (filep, -EINVAL)
  | some dev =>
    match dev.buffer with
    | none => .ok (filep, -EINVAL)
    | some buf =>
      if len > MAX_BUFFER_SIZE then .ok (filep, -EINVAL)
      else
        match memset_zero buf MAX_BUFFER_SIZE with
        | .error e => .error e
        | .ok buf1 =>
          match copy_from_user buf1 buffer len with
          | .error e => .error e
          | .ok (ret, buf2) =>
            if ret ≠ 0 then
              .ok ({ private_data := some { dev with buffer := some buf2 } }, -EFAULT)
            else
              match debug_peek buf2 len with
              | .error e => .error e
              | .ok _ =>
                .ok ({ private_data := some { dev with buffer := some buf2,
                                                       buffer_size := len } }, (len : Int))

/-- The function `dev_read(filep, buffer, len, offset)`.  `buffer` is the
writable user region at the destination pointer and `avail` says whether the
`kmalloc` of the temporary buffer finds memory.  The first `printk` reads
`dev->mode` and `dev->buffer_size` before `dev` is tested.  The result is the
file afterwards, the returned value and the user region afterwards. -/
def dev_read (filep : file) (buffer : List Byte) (len : Nat) (avail : Bool) :
    Except Fault (file × Int × List Byte) :=
  match filep.private_data with
  | none => .error Fault.null_pointer
  | some dev =>
    match dev.buffer with
    | none => .ok (filep, -EINVAL, buffer)
    | some buf =>
      match kmalloc MAX_BUFFER_SIZE avail with
      | none => .ok (filep, -ENOMEM, buffer)
      | some block =>
        match memset_zero block MAX_BUFFER_SIZE with
        | .error e => .error e
        | .ok temp_buffer =>
          match debug_peek buf dev.buffer_size with
          | .error e => .error e
          | .ok _ =>
            match (if dev.mode = .RLE_MODE_COMPRESS
                   then compress_rle buf dev.buffer_size temp_buffer
                   else decompress_rle buf dev.buffer_size temp_buffer) with
            | .error e => .error e
            | .ok (result_size, temp1) =>
              if result_size > len then .ok (filep, -EINVAL, buffer)
              else
                match copy_to_user buffer temp1 result_size with
                | .error e => .error e
                | .ok (ret, buffer1) =>
                  if ret ≠ 0 then .ok (filep, -EFAULT, buffer1)
                  else .ok (filep, (result_size : Int), buffer1)

/-- The function `dev_ioctl(filep, cmd, arg)`. -/
def dev_ioctl (filep : file) (cmd arg : Nat) : Except Fault (file × Int) :=
  match filep.private_data with
  | none => .ok (filep, -EINVAL)
  | some dev =>
    if cmd = RLE_SET_MODE then
      if arg ≠ rle_mode.toNat .RLE_MODE_COMPRESS ∧ arg ≠ rle_mode.toNat .RLE_MODE_DECOMPRESS then
        .ok (filep, -EINVAL)
      else
        .ok ({ private_data := some { dev with mode := rle_mode.of_arg arg } }, 0)
    else .ok (filep, -ENOTTY)

/-! ## Reference functions -/

/-- The expansion of a sequence of `(count, value)` pairs: `value` repeated
`count` times, concatenated in pair order; an incomplete last pair contributes
nothing and so does a pair of count 0. -/
def expand_pairs : List Byte → List Byte
  | count :: value :: rest => List.replicate count.val value ++ expand_pairs rest
  | _ => []

/-- The records still to be emitted when the run in progress has value `c` and
length `n` and `rest` is the unread input. -/
def rle_aux : List Byte → Byte → Nat → List Byte
  | [], c, n => [to_char n, c]
  | x :: xs, c, n =>
    if x = c ∧ n < 255 then rle_aux xs c (n + 1)
    else to_char n :: c :: rle_aux xs x 1

/-- The sequence of bytes `compress_rle` stores for the input `d`. -/
def rle_ref : List Byte → List Byte
  | [] => []
  | x :: xs => rle_aux xs x 1

/-- Every record of the list has a count byte between 1 and 255, and the list
is a whole number of records. -/
def records_ok (t : List Byte) : Prop :=
  t.length % 2 = 0 ∧ ∀ k b, k % 2 = 0 → t.get? k = some b → 1 ≤ b.val ∧ b.val ≤ 255

/-- The input with no two equal neighbours: `n` bytes `a b a b ...`. -/
def alternating : Nat → Byte → Byte → List Byte
  | 0, _, _ => []
  | n + 1, a, b => a :: alternating n b a

/-- The maximal runs still to come when the run in progress has value `c` and
length `n` and `rest` is the unread input: pairs `(value, length)` in input
order. -/
def runs_aux : List Byte → Byte → Nat → List (Byte × Nat)
  | [], c, n => [(c, n)]
  | x :: xs, c, n => if x = c then runs_aux xs c (n + 1) else (c, n) :: runs_aux xs x 1

/-- The maximal runs of identical consecutive bytes of `d`, left to right, as
pairs `(value, length)`. -/
def runs : List Byte → List (Byte × Nat)
  | [] => []
  | x :: xs => runs_aux xs x 1

/-- The records the reference emits for one maximal run of value `v` and length
`n`: `n / 255` records `(255, v)`, then one record `(n % 255, v)` when
`n % 255` is not zero. -/
def emit_run (r : Byte × Nat) : List Byte :=
  (List.replicate (r.2 / 255) [(255 : Byte), r.1]).flatten ++
    (if r.2 % 255 = 0 then [] else [to_char (r.2 % 255), r.1])

/-- The maximal-run reference encoding of `d`. -/
def encode_runs (d : List Byte) : List Byte :=
  (runs d).flatMap emit_run

/-- The `(count, value)` records of a flat encoding, in order. -/
def records : List Byte → List (Byte × Byte)
  | count :: value :: rest => (count, value) :: records rest
  | _ => []


/-! ## Sequences of calls on one session -/

theorem load_take_drop (input : List Byte) (n k : Nat) (hn : n ≤ input.length) (hk : k < n) :
    ∃ x, load input k = .ok x ∧ (input.take n).drop k = x :: (input.take n).drop (k + 1) := by
  have hk2 : k < input.length := by omega
  have hk3 : k < (input.take n).length := by simp; omega
  refine ⟨input[k], ?_, ?_⟩
  · simp [load, List.getElem?_eq_getElem hk2]
  · rw [List.drop_eq_getElem_cons hk3]
    simp

theorem store_ok (mem : List Byte) (p : Nat) (v : Byte) (h : p < mem.length) :
    store mem p v = .ok (mem.set p v) := by
  simp [store, h]

theorem store_fault (mem : List Byte) (p : Nat) (v : Byte) (h : mem.length ≤ p) :
    store mem p v = .error Fault.out_of_bounds := by
  simp [store]; omega

theorem take_set_succ (mem : List Byte) (p : Nat) (v : Byte) (h : p < mem.length) :
    (mem.set p v).take (p + 1) = mem.take p ++ [v] := by
  have h1 : (mem.set p v).take p = mem.take p := by
    rw [List.set_take]
    exact List.set_eq_of_length_le (by simp)
  rw [List.take_succ, h1]
  simp [List.getElem?_set, h]

theorem take_set_set (mem : List Byte) (p : Nat) (a b : Byte) (h : p + 1 < mem.length) :
    ((mem.set p a).set (p + 1) b).take (p + 2) = mem.take p ++ [a, b] := by
  rw [take_set_succ (mem.set p a) (p + 1) b (by simp; omega),
    take_set_succ mem p a (by omega)]
  simp

/-! ## The compressor against its reference -/

theorem to_char_val (n : Nat) (h : n ≤ 255) : (to_char n).val = n := by
  simp [to_char]; omega

theorem compress_run_spec (input : List Byte) (input_len i : Nat) (c : Byte)
    (hlen : input_len ≤ input.length) :
    ∀ fuel rl, i + rl ≤ input_len → rl ≤ 255 → 256 ≤ fuel + rl →
      ∃ rl1, compress_run input input_len i c fuel rl = .ok rl1 ∧ rl ≤ rl1 ∧ rl1 ≤ 255 ∧
        i + rl1 ≤ input_len ∧
        rle_aux ((input.take input_len).drop (i + rl)) c rl =
          to_char rl1 :: c :: rle_ref ((input.take input_len).drop (i + rl1)) := by
  intro fuel
  induction fuel with
  | zero => intro rl _ h2 h3; omega
  | succ fuel ih =>
    intro rl h1 h2 h3
    by_cases hlt : i + rl < input_len
    · obtain ⟨x, hx, hdrop⟩ := load_take_drop input input_len (i + rl) hlen hlt
      by_cases hc : x = c ∧ rl < 255
      · obtain ⟨rl1, e1, e2, e3, e4, e5⟩ := ih (rl + 1) (by omega) (by omega) (by omega)
        refine ⟨rl1, ?_, by omega, e3, e4, ?_⟩
        · simp only [compress_run, hlt, if_true, hx, hc, and_self]
          exact e1
        · rw [hdrop, rle_aux, if_pos hc]
          exact e5
      · refine ⟨rl, ?_, le_refl _, h2, h1, ?_⟩
        · simp only [compress_run, hlt, if_true, hx, if_neg hc]
        · rw [hdrop, rle_aux, if_neg hc, ← hdrop, hdrop, rle_ref]
    · have heq : i + rl = input_len := by omega
      refine ⟨rl, ?_, le_refl _, h2, h1, ?_⟩
      · simp only [compress_run, hlt, if_false]
      · have : (input.take input_len).drop (i + rl) = [] := by
          apply List.drop_eq_nil_of_le; simp; omega
        rw [this, rle_aux, rle_ref]

theorem compress_loop_spec (input : List Byte) (input_len : Nat)
    (hlen : input_len ≤ input.length) :
    ∀ fuel i out_pos output, i ≤ input_len → input_len < i + fuel →
      out_pos ≤ output.length →
      (out_pos + (rle_ref ((input.take input_len).drop i)).length ≤ output.length →
        ∃ output1, compress_loop input input_len fuel i out_pos output =
            .ok (out_pos + (rle_ref ((input.take input_len).drop i)).length, output1) ∧
          output1.length = output.length ∧
          output1.take (out_pos + (rle_ref ((input.take input_len).drop i)).length) =
            output.take out_pos ++ rle_ref ((input.take input_len).drop i)) ∧
      (output.length < out_pos + (rle_ref ((input.take input_len).drop i)).length →
        compress_loop input input_len fuel i out_pos output = .error Fault.out_of_bounds) := by
  intro fuel
  induction fuel with
  | zero => intro i _ _ h1 h2 _; omega
  | succ fuel ih =>
    intro i out_pos output h1 h2 h3
    by_cases hlt : i < input_len
    · obtain ⟨x, hx, hdrop⟩ := load_take_drop input input_len i hlen hlt
      obtain ⟨rl, e1, e2, e3, e4, e5⟩ :=
        compress_run_spec input input_len i x hlen 255 1 (by omega) (by omega) (by omega)
      have href : rle_ref ((input.take input_len).drop i) =
          to_char rl :: x :: rle_ref ((input.take input_len).drop (i + rl)) := by
        rw [hdrop, rle_ref]; exact e5
      rw [href]
      simp only [List.length_cons]
      constructor
      · intro hfit
        have hs1 := store_ok output out_pos (to_char rl) (by omega)
        have hs2 := store_ok (output.set out_pos (to_char rl)) (out_pos + 1) x
          (by simp; omega)
        obtain ⟨output1, f1, f2, f3⟩ :=
          (ih (i + rl) (out_pos + 2) ((output.set out_pos (to_char rl)).set (out_pos + 1) x)
            e4 (by omega) (by simp; omega)).1 (by simp; omega)
        refine ⟨output1, ?_, ?_, ?_⟩
        · simp only [compress_loop, hlt, if_true, hx, e1, hs1, hs2]
          rw [f1]
          congr 2; omega
        · rw [f2]; simp
        · have e : out_pos + ((rle_ref ((input.take input_len).drop (i + rl))).length + 1 + 1)
              = out_pos + 2 + (rle_ref ((input.take input_len).drop (i + rl))).length := by
            omega
          rw [e, f3, take_set_set output out_pos (to_char rl) x (by omega)]
          simp
      · intro hover
        by_cases hp0 : output.length ≤ out_pos
        · have hs1 := store_fault output out_pos (to_char rl) hp0
          simp only [compress_loop, hlt, if_true, hx, e1, hs1]
        · have hs1 := store_ok output out_pos (to_char rl) (by omega)
          by_cases hp1 : output.length ≤ out_pos + 1
          · have hs2 := store_fault (output.set out_pos (to_char rl)) (out_pos + 1) x
              (by simp; omega)
            simp only [compress_loop, hlt, if_true, hx, e1, hs1, hs2]
          · have hs2 := store_ok (output.set out_pos (to_char rl)) (out_pos + 1) x
              (by simp; omega)
            have f1 := (ih (i + rl) (out_pos + 2)
              ((output.set out_pos (to_char rl)).set (out_pos + 1) x)
              e4 (by omega) (by simp; omega)).2 (by simp; omega)
            simp only [compress_loop, hlt, if_true, hx, e1, hs1, hs2]
            exact f1
    · have heq : (input.take input_len).drop i = [] := by
        apply List.drop_eq_nil_of_le; simp; omega
      rw [heq]
      simp only [rle_ref, List.length_nil, Nat.add_zero, List.append_nil]
      constructor
      · intro _
        exact ⟨output, by simp only [compress_loop, hlt, if_false], rfl, rfl⟩
      · intro h; omega

/-! ## Properties of the reference encoding -/

theorem expand_rle_aux : ∀ (xs : List Byte) (c : Byte) (n : Nat), n ≤ 255 →
    expand_pairs (rle_aux xs c n) = List.replicate n c ++ xs := by
  intro xs
  induction xs with
  | nil => intro c n hn; simp [rle_aux, expand_pairs, to_char_val n hn]
  | cons x xs ih =>
    intro c n hn
    by_cases hc : x = c ∧ n < 255
    · rw [rle_aux, if_pos hc, ih c (n + 1) (by omega), hc.1]
      simp [List.replicate_succ']
    · rw [rle_aux, if_neg hc, expand_pairs, ih x 1 (by omega), to_char_val n hn]
      simp

theorem expand_rle_ref (d : List Byte) : expand_pairs (rle_ref d) = d := by
  cases d with
  | nil => simp [rle_ref, expand_pairs]
  | cons x xs => rw [rle_ref, expand_rle_aux xs x 1 (by omega)]; simp

theorem records_ok_cons (a c : Byte) (t : List Byte) (ha : 1 ≤ a.val)
    (ht : records_ok t) : records_ok (a :: c :: t) := by
  refine ⟨by simp [List.length_cons]; have := ht.1; omega, ?_⟩
  intro k b hk hb
  match k with
  | 0 =>
    simp at hb
    subst hb
    exact ⟨ha, by have := a.isLt; omega⟩
  | 1 => omega
  | k + 2 =>
    simp at hb
    exact ht.2 k b (by omega) (by simpa using hb)

theorem records_ok_rle_aux : ∀ (xs : List Byte) (c : Byte) (n : Nat), 1 ≤ n → n ≤ 255 →
    records_ok (rle_aux xs c n) := by
  intro xs
  induction xs with
  | nil =>
    intro c n h1 h2
    rw [rle_aux]
    exact records_ok_cons _ _ _ (by rw [to_char_val n h2]; exact h1) ⟨rfl, by simp⟩
  | cons x xs ih =>
    intro c n h1 h2
    by_cases hc : x = c ∧ n < 255
    · rw [rle_aux, if_pos hc]; exact ih c (n + 1) (by omega) (by omega)
    · rw [rle_aux, if_neg hc]
      exact records_ok_cons _ _ _ (by rw [to_char_val n h2]; exact h1)
        (ih x 1 (by omega) (by omega))

theorem records_ok_rle_ref (d : List Byte) : records_ok (rle_ref d) := by
  cases d with
  | nil => exact ⟨rfl, by simp [rle_ref]⟩
  | cons x xs => exact records_ok_rle_aux xs x 1 (by omega) (by omega)

theorem length_rle_aux_le : ∀ (xs : List Byte) (c : Byte) (n : Nat),
    (rle_aux xs c n).length ≤ 2 * (xs.length + 1) := by
  intro xs
  induction xs with
  | nil => intro c n; simp [rle_aux]
  | cons x xs ih =>
    intro c n
    by_cases hc : x = c ∧ n < 255
    · rw [rle_aux, if_pos hc]; have := ih c (n + 1); simp only [List.length_cons]; omega
    · rw [rle_aux, if_neg hc]; have := ih x 1; simp only [List.length_cons]; omega

theorem length_rle_ref_le (d : List Byte) : (rle_ref d).length ≤ 2 * d.length := by
  cases d with
  | nil => simp [rle_ref]
  | cons x xs => exact length_rle_aux_le xs x 1

theorem length_alternating : ∀ (n : Nat) (a b : Byte), (alternating n a b).length = n := by
  intro n
  induction n with
  | zero => intro a b; rfl
  | succ n ih => intro a b; simp [alternating, ih]

theorem length_rle_aux_alternating : ∀ (n : Nat) (a b c : Byte) (k : Nat), a ≠ b → c ≠ a →
    (rle_aux (alternating n a b) c k).length = 2 * (n + 1) := by
  intro n
  induction n with
  | zero => intro a b c k _ _; simp [alternating, rle_aux]
  | succ n ih =>
    intro a b c k hab hca
    have hc : ¬ (a = c ∧ k < 255) := fun h => hca h.1.symm
    rw [alternating, rle_aux, if_neg hc]
    simp only [List.length_cons]
    rw [ih b a a 1 (fun h => hab h.symm) hab]
    omega

theorem length_rle_ref_alternating (n : Nat) (a b : Byte) (hab : a ≠ b) :
    (rle_ref (alternating n a b)).length = 2 * n := by
  cases n with
  | zero => rfl
  | succ n =>
    rw [alternating, rle_ref, length_rle_aux_alternating n b a a 1 (fun h => hab h.symm) hab]

/-! ## The codec functions against the references -/

/-- With room for the whole encoding, `compress_rle` stores `rle_ref` of the
input at the start of `output` and returns its length. -/
theorem compress_rle_ok (input : List Byte) (input_len : Nat) (output : List Byte)
    (hlen : input_len ≤ input.length)
    (hroom : (rle_ref (input.take input_len)).length ≤ output.length) :
    ∃ output1, compress_rle input input_len output =
        .ok ((rle_ref (input.take input_len)).length, output1) ∧
      output1.length = output.length ∧
      output1.take (rle_ref (input.take input_len)).length = rle_ref (input.take input_len) := by
  have h := (compress_loop_spec input input_len hlen (input_len + 1) 0 0 output
    (Nat.zero_le _) (by omega) (Nat.zero_le _)).1
  simp only [List.drop_zero, Nat.zero_add, List.take_zero, List.nil_append] at h
  exact h hroom

/-- Without room for the whole encoding, `compress_rle` stores outside `output`. -/
theorem compress_rle_fault (input : List Byte) (input_len : Nat) (output : List Byte)
    (hlen : input_len ≤ input.length)
    (hroom : output.length < (rle_ref (input.take input_len)).length) :
    compress_rle input input_len output = .error Fault.out_of_bounds := by
  have h := (compress_loop_spec input input_len hlen (input_len + 1) 0 0 output
    (Nat.zero_le _) (by omega) (Nat.zero_le _)).2
  simp only [List.drop_zero, Nat.zero_add] at h
  exact h hroom

/-! ## The decompressor against its reference -/

theorem decompress_run_spec (value : Byte) :
    ∀ count out_pos output, out_pos ≤ MAX_BUFFER_SIZE → MAX_BUFFER_SIZE ≤ output.length →
      ∃ output1, decompress_run value count out_pos output =
          .ok (min (out_pos + count) MAX_BUFFER_SIZE, output1) ∧
        output1.length = output.length ∧
        output1.take (min (out_pos + count) MAX_BUFFER_SIZE) =
          output.take out_pos ++
            List.replicate (min (out_pos + count) MAX_BUFFER_SIZE - out_pos) value := by
  intro count
  induction count with
  | zero =>
    intro out_pos output h1 _
    refine ⟨output, ?_, rfl, ?_⟩
    · simp [decompress_run, Nat.min_eq_left h1]
    · simp [Nat.min_eq_left h1]
  | succ count ih =>
    intro out_pos output h1 h2
    by_cases hlt : out_pos < MAX_BUFFER_SIZE
    · have hs := store_ok output out_pos value (by omega)
      obtain ⟨output1, f1, f2, f3⟩ := ih (out_pos + 1) (output.set out_pos value)
        (by omega) (by simp; omega)
      have e : out_pos + 1 + count = out_pos + (count + 1) := by omega
      rw [e] at f1 f3
      refine ⟨output1, ?_, by rw [f2]; simp, ?_⟩
      · simp only [decompress_run, hlt, if_true, hs]
        exact f1
      · rw [f3, take_set_succ output out_pos value (by omega)]
        have hm : min (out_pos + (count + 1)) MAX_BUFFER_SIZE - out_pos =
            (min (out_pos + (count + 1)) MAX_BUFFER_SIZE - (out_pos + 1)) + 1 := by
          omega
        rw [hm, List.replicate_succ]
        simp
    · have heq : out_pos = MAX_BUFFER_SIZE := by omega
      refine ⟨output, ?_, rfl, ?_⟩
      · simp only [decompress_run, hlt, if_false]
        congr 2; omega
      · have hm : min (out_pos + (count + 1)) MAX_BUFFER_SIZE = out_pos := by omega
        rw [hm]; simp

theorem expand_pairs_short (l : List Byte) (h : l.length ≤ 1) : expand_pairs l = [] := by
  match l with
  | [] => rfl
  | [_] => rfl
  | _ :: _ :: _ => simp at h

theorem decompress_loop_spec (input : List Byte) (input_len : Nat)
    (hlen : input_len ≤ input.length) :
    ∀ fuel i out_pos output, i ≤ input_len → input_len < i + fuel →
      out_pos ≤ MAX_BUFFER_SIZE → MAX_BUFFER_SIZE ≤ output.length →
      ∃ output1, decompress_loop input input_len fuel i out_pos output =
          .ok (min (out_pos + (expand_pairs ((input.take input_len).drop i)).length)
                MAX_BUFFER_SIZE, output1) ∧
        output1.length = output.length ∧
        output1.take (min (out_pos + (expand_pairs ((input.take input_len).drop i)).length)
                MAX_BUFFER_SIZE) =
          output.take out_pos ++
            (expand_pairs ((input.take input_len).drop i)).take (MAX_BUFFER_SIZE - out_pos) := by
  intro fuel
  induction fuel with
  | zero => intro i _ _ h1 h2 _ _; omega
  | succ fuel ih =>
    intro i out_pos output h1 h2 h3 h4
    by_cases hlt : i + 1 < input_len
    · obtain ⟨cnt, hc, hdrop1⟩ := load_take_drop input input_len i hlen (by omega)
      obtain ⟨v, hv, hdrop2⟩ := load_take_drop input input_len (i + 1) hlen hlt
      obtain ⟨o1, r1, r2, r3⟩ := decompress_run_spec v cnt.val out_pos output h3 h4
      obtain ⟨o2, f1, f2, f3⟩ := ih (i + 2) (min (out_pos + cnt.val) MAX_BUFFER_SIZE) o1
        (by omega) (by omega) (Nat.min_le_right _ _) (by omega)
      have hE : expand_pairs ((input.take input_len).drop i) =
          List.replicate cnt.val v ++ expand_pairs ((input.take input_len).drop (i + 2)) := by
        rw [hdrop1, hdrop2, expand_pairs]
      have hn : min (min (out_pos + cnt.val) MAX_BUFFER_SIZE +
            (expand_pairs ((input.take input_len).drop (i + 2))).length) MAX_BUFFER_SIZE =
          min (out_pos + (expand_pairs ((input.take input_len).drop i)).length)
            MAX_BUFFER_SIZE := by
        rw [hE]; simp only [List.length_append, List.length_replicate]; omega
      rw [hn] at f1 f3
      refine ⟨o2, ?_, by rw [f2, r2], ?_⟩
      · simp only [decompress_loop, hlt, if_true, hc, hv, r1]
        exact f1
      · rw [f3, r3, hE, List.append_assoc]
        congr 1
        rw [List.take_append_eq_append_take, List.take_replicate, List.length_replicate]
        congr 2
        · omega
        · omega
    · have hE : expand_pairs ((input.take input_len).drop i) = [] := by
        apply expand_pairs_short; simp; omega
      rw [hE]
      refine ⟨output, ?_, rfl, ?_⟩
      · simp only [decompress_loop, hlt, if_false, List.length_nil, Nat.add_zero,
          Nat.min_eq_left h3]
      · simp [Nat.min_eq_left h3]

/-- With a destination of at least `MAX_BUFFER_SIZE` bytes, `decompress_rle`
stores the first `MAX_BUFFER_SIZE` bytes of the expansion of the input at the
start of `output` and returns their number. -/
theorem decompress_rle_ok (input : List Byte) (input_len : Nat) (output : List Byte)
    (hlen : input_len ≤ input.length) (hroom : MAX_BUFFER_SIZE ≤ output.length) :
    ∃ output1, decompress_rle input input_len output =
        .ok (min (expand_pairs (input.take input_len)).length MAX_BUFFER_SIZE, output1) ∧
      output1.length = output.length ∧
      output1.take (min (expand_pairs (input.take input_len)).length MAX_BUFFER_SIZE) =
        (expand_pairs (input.take input_len)).take MAX_BUFFER_SIZE := by
  have h := decompress_loop_spec input input_len hlen (input_len + 1) 0 0 output
    (Nat.zero_le _) (by omega) (Nat.zero_le _) hroom
  simpa only [List.drop_zero, Nat.zero_add, List.take_zero, List.nil_append, Nat.sub_zero]
    using h

/-! ## Session lemmas -/

theorem memset_zero_fresh (n : Nat) :
    memset_zero (List.replicate n (0 : Byte)) n = .ok (List.replicate n (0 : Byte)) := by
  simp [memset_zero]

theorem memset_zero_full (mem : List Byte) :
    memset_zero mem mem.length = .ok (List.replicate mem.length (0 : Byte)) := by
  simp [memset_zero]

theorem load_ok (mem : List Byte) (k : Nat) (h : k < mem.length) :
    ∃ x, load mem k = .ok x :=
  ⟨mem[k], by simp [load, List.getElem?_eq_getElem h]⟩

theorem debug_peek_ok (buf : List Byte) (n : Nat) (h : 4 ≤ buf.length) :
    debug_peek buf n = .ok () := by
  obtain ⟨x0, h0⟩ := load_ok buf 0 (by omega)
  obtain ⟨x1, h1⟩ := load_ok buf 1 (by omega)
  obtain ⟨x2, h2⟩ := load_ok buf 2 (by omega)
  obtain ⟨x3, h3⟩ := load_ok buf 3 (by omega)
  unfold debug_peek
  rw [h0, h1, h2, h3]
  by_cases a : n > 2 <;> by_cases b : n > 3 <;> simp [a, b]

theorem four_le_max : 4 ≤ MAX_BUFFER_SIZE := by decide

/-- The first part of `dev_read` on an open session: the transform selected by
the mode is run on the session buffer and a fresh temporary buffer. -/
theorem dev_read_eq (buf : List Byte) (vl : Nat) (m : rle_mode) (ubuf : List Byte) (len : Nat)
    (hbuf : buf.length = MAX_BUFFER_SIZE) :
    dev_read ⟨some ⟨some buf, vl, m⟩⟩ ubuf len true =
      match (if m = .RLE_MODE_COMPRESS
             then compress_rle buf vl (List.replicate MAX_BUFFER_SIZE 0)
             else decompress_rle buf vl (List.replicate MAX_BUFFER_SIZE 0)) with
      | .error e => .error e
      | .ok (result_size, temp1) =>
        if result_size > len then .ok (⟨some ⟨some buf, vl, m⟩⟩, -EINVAL, ubuf)
        else
          match copy_to_user ubuf temp1 result_size with
          | .error e => .error e
          | .ok (ret, buffer1) =>
            if ret ≠ 0 then .ok (⟨some ⟨some buf, vl, m⟩⟩, -EFAULT, buffer1)
            else .ok (⟨some ⟨some buf, vl, m⟩⟩, (result_size : Int), buffer1) := by
  have hp := debug_peek_ok buf vl (by rw [hbuf]; exact four_le_max)
  simp only [dev_read, kmalloc, if_true, memset_zero_fresh, hp]

theorem dev_write_eq (buf : List Byte) (vl : Nat) (m : rle_mode) (buffer : List Byte) (len : Nat)
    (hbuf : buf.length = MAX_BUFFER_SIZE) :
    dev_write ⟨some ⟨some buf, vl, m⟩⟩ buffer len =
      if len > MAX_BUFFER_SIZE then .ok (⟨some ⟨some buf, vl, m⟩⟩, -EINVAL)
      else if len - min len buffer.length ≠ 0 then
        .ok (⟨some ⟨some (buffer.take (min len buffer.length) ++
            List.replicate (len - min len buffer.length) (0 : Byte) ++
            List.replicate (MAX_BUFFER_SIZE - len) (0 : Byte)), vl, m⟩⟩, -EFAULT)
      else
        .ok (⟨some ⟨some (buffer.take (min len buffer.length) ++
            List.replicate (len - min len buffer.length) (0 : Byte) ++
            List.replicate (MAX_BUFFER_SIZE - len) (0 : Byte)), len, m⟩⟩, (len : Int)) := by
  have hm : memset_zero buf MAX_BUFFER_SIZE = .ok (List.replicate MAX_BUFFER_SIZE (0 : Byte)) := by
    rw [← hbuf]; exact memset_zero_full buf
  by_cases hlen : len > MAX_BUFFER_SIZE
  · simp only [dev_write, hlen, if_true]
  · have hc : copy_from_user (List.replicate MAX_BUFFER_SIZE (0 : Byte)) buffer len =
        .ok (len - min len buffer.length,
          buffer.take (min len buffer.length) ++
            List.replicate (len - min len buffer.length) (0 : Byte) ++
            List.replicate (MAX_BUFFER_SIZE - len) (0 : Byte)) := by
      have : len ≤ (List.replicate MAX_BUFFER_SIZE (0 : Byte)).length := by
        rw [List.length_replicate]; omega
      simp only [copy_from_user, this, if_true, List.drop_replicate]
    have hp := debug_peek_ok (buffer.take (min len buffer.length) ++
            List.replicate (len - min len buffer.length) (0 : Byte) ++
            List.replicate (MAX_BUFFER_SIZE - len) (0 : Byte)) len
        (by
          have := four_le_max
          simp only [List.length_append, List.length_take, List.length_replicate]
          omega)
    simp only [dev_write, hlen, if_false, hm, hc, hp]

/-- In compress mode with an encoding longer than the temporary buffer,
`dev_read` stores outside the temporary buffer. -/
theorem dev_read_compress_fault (buf : List Byte) (vl : Nat) (ubuf : List Byte) (len : Nat)
    (hbuf : buf.length = MAX_BUFFER_SIZE) (hvl : vl ≤ MAX_BUFFER_SIZE)
    (hfit : MAX_BUFFER_SIZE < (rle_ref (buf.take vl)).length) :
    dev_read ⟨some ⟨some buf, vl, .RLE_MODE_COMPRESS⟩⟩ ubuf len true =
      .error Fault.out_of_bounds := by
  have e1 := compress_rle_fault buf vl (List.replicate MAX_BUFFER_SIZE 0)
    (by omega) (by rw [List.length_replicate]; exact hfit)
  rw [dev_read_eq buf vl _ ubuf len hbuf]
  simp only [if_true, e1]

/-- In decompress mode with a large enough destination, `dev_read` delivers the
first `MAX_BUFFER_SIZE` bytes of the expansion of the valid bytes. -/
theorem dev_read_decompress_ok (buf : List Byte) (vl : Nat) (ubuf : List Byte) (len : Nat)
    (hbuf : buf.length = MAX_BUFFER_SIZE) (hvl : vl ≤ MAX_BUFFER_SIZE)
    (hcap : min (expand_pairs (buf.take vl)).length MAX_BUFFER_SIZE ≤ len)
    (hreg : len ≤ ubuf.length) :
    dev_read ⟨some ⟨some buf, vl, .RLE_MODE_DECOMPRESS⟩⟩ ubuf len true =
      .ok (⟨some ⟨some buf, vl, .RLE_MODE_DECOMPRESS⟩⟩,
        ((min (expand_pairs (buf.take vl)).length MAX_BUFFER_SIZE : Nat) : Int),
        (expand_pairs (buf.take vl)).take MAX_BUFFER_SIZE ++
          ubuf.drop (min (expand_pairs (buf.take vl)).length MAX_BUFFER_SIZE)) := by
  obtain ⟨t1, e1, e2, e3⟩ := decompress_rle_ok buf vl (List.replicate MAX_BUFFER_SIZE 0)
    (by omega) (by rw [List.length_replicate])
  rw [dev_read_eq buf vl _ ubuf len hbuf]
  have hne : ¬ (rle_mode.RLE_MODE_DECOMPRESS = rle_mode.RLE_MODE_COMPRESS) := by decide
  simp only [hne, if_false, e1]
  have h1 : ¬ (min (expand_pairs (buf.take vl)).length MAX_BUFFER_SIZE > len) := by omega
  have h2 : min (expand_pairs (buf.take vl)).length MAX_BUFFER_SIZE ≤ t1.length := by
    rw [e2, List.length_replicate]; exact Nat.min_le_right _ _
  have h3 : min (min (expand_pairs (buf.take vl)).length MAX_BUFFER_SIZE) ubuf.length =
      min (expand_pairs (buf.take vl)).length MAX_BUFFER_SIZE := by
    omega
  simp only [h1, if_false, copy_to_user, h2, if_true, h3, Nat.sub_self, ne_eq,
    not_true_eq_false, e3]

/-- In compress mode with an encoding that fits the temporary buffer but not
the capacity passed by the caller, `dev_read` returns `-EINVAL` and delivers
nothing. -/
theorem dev_read_compress_einval (buf : List Byte) (vl : Nat) (ubuf : List Byte) (len : Nat)
    (hbuf : buf.length = MAX_BUFFER_SIZE) (hvl : vl ≤ MAX_BUFFER_SIZE)
    (hfit : (rle_ref (buf.take vl)).length ≤ MAX_BUFFER_SIZE)
    (hcap : len < (rle_ref (buf.take vl)).length) :
    dev_read ⟨some ⟨some buf, vl, .RLE_MODE_COMPRESS⟩⟩ ubuf len true =
      .ok (⟨some ⟨some buf, vl, .RLE_MODE_COMPRESS⟩⟩, -EINVAL, ubuf) := by
  obtain ⟨t1, e1, _, _⟩ := compress_rle_ok buf vl (List.replicate MAX_BUFFER_SIZE 0)
    (by omega) (by rw [List.length_replicate]; exact hfit)
  rw [dev_read_eq buf vl _ ubuf len hbuf]
  have h1 : (rle_ref (buf.take vl)).length > len := hcap
  simp only [if_true, e1, h1]

theorem dev_open_ok (filep : file) :
    dev_open filep true true =
      .ok (⟨some ⟨some (List.replicate MAX_BUFFER_SIZE (0 : Byte)), 0, .RLE_MODE_COMPRESS⟩⟩, 0) := by
  unfold dev_open
  generalize MAX_BUFFER_SIZE = n
  simp [kmalloc, memset_zero]

theorem dev_write_ok (buf : List Byte) (vl : Nat) (m : rle_mode) (data : List Byte)
    (hbuf : buf.length = MAX_BUFFER_SIZE) (hlen : data.length ≤ MAX_BUFFER_SIZE) :
    dev_write ⟨some ⟨some buf, vl, m⟩⟩ data data.length =
      .ok (⟨some ⟨some (data ++ List.replicate (MAX_BUFFER_SIZE - data.length) (0 : Byte)),
              data.length, m⟩⟩, (data.length : Int)) := by
  rw [dev_write_eq buf vl m data data.length hbuf]
  have h1 : ¬ (data.length > MAX_BUFFER_SIZE) := by omega
  simp only [h1, if_false, Nat.min_self, Nat.sub_self, ne_eq, not_true_eq_false,
    List.take_length, List.replicate_zero, List.append_nil]

theorem length_written (data : List Byte) (hlen : data.length ≤ MAX_BUFFER_SIZE) :
    (data ++ List.replicate (MAX_BUFFER_SIZE - data.length) (0 : Byte)).length =
      MAX_BUFFER_SIZE := by
  simp only [List.length_append, List.length_replicate]; omega

theorem take_written (data : List Byte) (n : Nat) :
    (data ++ List.replicate n (0 : Byte)).take data.length = data := by
  simp

theorem dev_ioctl_eq (dev : rle_dev) (arg : Nat) :
    dev_ioctl ⟨some dev⟩ RLE_SET_MODE arg =
      if arg = 0 then .ok (⟨some ⟨dev.buffer, dev.buffer_size, .RLE_MODE_COMPRESS⟩⟩, 0)
      else if arg = 1 then .ok (⟨some ⟨dev.buffer, dev.buffer_size, .RLE_MODE_DECOMPRESS⟩⟩, 0)
      else .ok (⟨some dev⟩, -EINVAL) := by
  by_cases h0 : arg = 0
  · subst h0; simp [dev_ioctl, rle_mode.toNat, rle_mode.of_arg]
  · by_cases h1 : arg = 1
    · subst h1; simp [dev_ioctl, rle_mode.toNat, rle_mode.of_arg]
    · simp [dev_ioctl, rle_mode.toNat, h0, h1]

/-- The session after a write of the 4096 bytes `A B A B ...`, in compress
mode, cannot be read: the encoding does not fit the temporary buffer. -/
theorem dev_read_after_full_write (ubuf : List Byte) (len : Nat) :
    dev_read ⟨some ⟨some (alternating 4096 0x41 0x42 ++
        List.replicate (MAX_BUFFER_SIZE - 4096) (0 : Byte)), 4096, .RLE_MODE_COMPRESS⟩⟩
      ubuf len true = .error Fault.out_of_bounds := by
  have hl := length_alternating 4096 0x41 0x42
  have ht : (alternating 4096 0x41 0x42 ++
      List.replicate (MAX_BUFFER_SIZE - 4096) (0 : Byte)).take 4096 =
      alternating 4096 0x41 0x42 := by
    have := take_written (alternating 4096 0x41 0x42) (MAX_BUFFER_SIZE - 4096)
    rw [hl] at this; exact this
  have hb : (alternating 4096 0x41 0x42 ++
      List.replicate (MAX_BUFFER_SIZE - 4096) (0 : Byte)).length = MAX_BUFFER_SIZE := by
    have := length_written (alternating 4096 0x41 0x42) (by rw [hl]; decide)
    rw [hl] at this; exact this
  apply dev_read_compress_fault _ 4096 ubuf len hb (by decide)
  rw [ht, length_rle_ref_alternating 4096 0x41 0x42 (by decide)]
  decide

theorem dev_write_full (buf : List Byte) (vl : Nat) (m : rle_mode)
    (hbuf : buf.length = MAX_BUFFER_SIZE) :
    dev_write ⟨some ⟨some buf, vl, m⟩⟩ (alternating 4096 0x41 0x42) 4096 =
      .ok (⟨some ⟨some (alternating 4096 0x41 0x42 ++
        List.replicate (MAX_BUFFER_SIZE - 4096) (0 : Byte)), 4096, m⟩⟩, 4096) := by
  have hl := length_alternating 4096 0x41 0x42
  have := dev_write_ok buf vl m (alternating 4096 0x41 0x42) hbuf (by rw [hl]; decide)
  rw [hl] at this
  exact this

/-! ## Further properties of the references -/

theorem expand_pairs_append_single : ∀ (p : List Byte) (b : Byte), p.length % 2 = 0 →
    expand_pairs (p ++ [b]) = expand_pairs p
  | [], _, _ => rfl
  | [_], _, h => by simp at h
  | c :: v :: rest, b, h => by
    have h2 : rest.length % 2 = 0 := by simp only [List.length_cons] at h; omega
    have ih := expand_pairs_append_single rest b h2
    show expand_pairs (c :: v :: (rest ++ [b])) = expand_pairs (c :: v :: rest)
    rw [expand_pairs, expand_pairs, ih]

theorem length_rle_aux_eq_iff : ∀ (xs : List Byte) (c : Byte) (n : Nat), n < 255 →
    ((rle_aux xs c n).length = 2 * (xs.length + 1) ↔ List.Chain (· ≠ ·) c xs) := by
  intro xs
  induction xs with
  | nil => intro c n _; simp [rle_aux]
  | cons x xs ih =>
    intro c n hn
    by_cases hx : x = c
    · have hc : x = c ∧ n < 255 := ⟨hx, hn⟩
      have hle := length_rle_aux_le xs c (n + 1)
      rw [rle_aux, if_pos hc]
      simp only [List.length_cons, List.chain_cons]
      constructor
      · intro h; omega
      · intro h; exact absurd hx.symm h.1
    · have hc : ¬ (x = c ∧ n < 255) := fun h => hx h.1
      rw [rle_aux, if_neg hc]
      simp only [List.length_cons, List.chain_cons]
      have := ih x 1 (by omega)
      constructor
      · intro h; exact ⟨fun e => hx e.symm, this.1 (by omega)⟩
      · intro h; have := this.2 h.2; omega

theorem length_rle_ref_eq_iff (d : List Byte) :
    (rle_ref d).length = 2 * d.length ↔ List.Chain' (· ≠ ·) d := by
  cases d with
  | nil => simp [rle_ref]
  | cons x xs => exact length_rle_aux_eq_iff xs x 1 (by omega)


/-! ## The maximal-run reference -/

theorem emit_run_split (c : Byte) (q k : Nat) (h1 : 1 ≤ k) (h2 : k ≤ 255) :
    emit_run (c, 255 * q + k) =
      (List.replicate q [(255 : Byte), c]).flatten ++ [to_char k, c] := by
  by_cases hk : k < 255
  · have hd : (255 * q + k) / 255 = q := by omega
    have hm : (255 * q + k) % 255 = k := by omega
    have hne : ¬ (k = 0) := by omega
    simp only [emit_run, hd, hm, hne, if_false]
  · have hk2 : k = 255 := by omega
    subst hk2
    have hd : (255 * q + 255) / 255 = q + 1 := by omega
    have hm : (255 * q + 255) % 255 = 0 := by omega
    have ht : to_char 255 = (255 : Byte) := by decide
    simp only [emit_run, hd, hm, if_true, List.append_nil, ht, List.replicate_succ',
      List.flatten_append, List.flatten_cons, List.flatten_nil]

theorem rle_aux_runs : ∀ (xs : List Byte) (c : Byte) (k q : Nat), 1 ≤ k → k ≤ 255 →
    (List.replicate q [(255 : Byte), c]).flatten ++ rle_aux xs c k =
      (runs_aux xs c (255 * q + k)).flatMap emit_run := by
  intro xs
  induction xs with
  | nil =>
    intro c k q h1 h2
    simp only [rle_aux, runs_aux, List.flatMap_cons, List.flatMap_nil, List.append_nil]
    exact (emit_run_split c q k h1 h2).symm
  | cons x xs ih =>
    intro c k q h1 h2
    by_cases hx : x = c
    · by_cases hk : k < 255
      · have hc : x = c ∧ k < 255 := ⟨hx, hk⟩
        rw [rle_aux, if_pos hc, runs_aux, if_pos hx]
        exact ih c (k + 1) q (by omega) (by omega)
      · have hc : ¬ (x = c ∧ k < 255) := fun h => hk h.2
        have hk2 : k = 255 := by omega
        subst hk2
        have ht : to_char 255 = (255 : Byte) := by decide
        rw [rle_aux, if_neg hc, runs_aux, if_pos hx, hx, ht]
        have e : 255 * q + 255 + 1 = 255 * (q + 1) + 1 := by omega
        rw [e, ← ih c 1 (q + 1) (by omega) (by omega)]
        simp only [List.replicate_succ', List.flatten_append, List.flatten_cons,
          List.flatten_nil, List.append_nil, List.append_assoc, List.cons_append,
          List.nil_append]
    · have hc : ¬ (x = c ∧ k < 255) := fun h => hx h.1
      rw [rle_aux, if_neg hc, runs_aux, if_neg hx, List.flatMap_cons,
        emit_run_split c q k h1 h2]
      have := ih x 1 0 (by omega) (by omega)
      simp only [List.replicate_zero, List.flatten_nil, List.nil_append, Nat.mul_zero,
        Nat.zero_add] at this
      rw [← this]
      simp only [List.append_assoc, List.cons_append, List.nil_append]

theorem rle_ref_eq_encode_runs (d : List Byte) : rle_ref d = encode_runs d := by
  cases d with
  | nil => rfl
  | cons x xs =>
    have := rle_aux_runs xs x 1 0 (by omega) (by omega)
    simp only [List.replicate_zero, List.flatten_nil, List.nil_append, Nat.mul_zero,
      Nat.zero_add] at this
    rw [rle_ref, encode_runs, runs]
    exact this

theorem flatten_runs_aux : ∀ (xs : List Byte) (c : Byte) (m : Nat),
    (runs_aux xs c m).flatMap (fun r => List.replicate r.2 r.1) = List.replicate m c ++ xs := by
  intro xs
  induction xs with
  | nil => intro c m; simp [runs_aux]
  | cons x xs ih =>
    intro c m
    by_cases hx : x = c
    · rw [runs_aux, if_pos hx, ih c (m + 1), hx]
      simp [List.replicate_succ']
    · rw [runs_aux, if_neg hx, List.flatMap_cons, ih x 1]
      simp

theorem flatten_runs (d : List Byte) :
    (runs d).flatMap (fun r => List.replicate r.2 r.1) = d := by
  cases d with
  | nil => rfl
  | cons x xs => rw [runs, flatten_runs_aux xs x 1]; simp

theorem runs_aux_pos : ∀ (xs : List Byte) (c : Byte) (m : Nat), 1 ≤ m →
    ∀ r ∈ runs_aux xs c m, 1 ≤ r.2 := by
  intro xs
  induction xs with
  | nil => intro c m hm r hr; simp [runs_aux] at hr; subst hr; exact hm
  | cons x xs ih =>
    intro c m hm r hr
    by_cases hx : x = c
    · rw [runs_aux, if_pos hx] at hr
      exact ih c (m + 1) (by omega) r hr
    · rw [runs_aux, if_neg hx, List.mem_cons] at hr
      rcases hr with hr | hr
      · subst hr; exact hm
      · exact ih x 1 (by omega) r hr

theorem runs_pos (d : List Byte) : ∀ r ∈ runs d, 1 ≤ r.2 := by
  cases d with
  | nil => intro r hr; simp [runs] at hr
  | cons x xs => exact runs_aux_pos xs x 1 (by omega)

theorem runs_aux_chain : ∀ (xs : List Byte) (c : Byte) (m : Nat),
    ∃ n rest, runs_aux xs c m = (c, n) :: rest ∧
      List.Chain (fun r s : Byte × Nat => r.1 ≠ s.1) (c, n) rest := by
  intro xs
  induction xs with
  | nil => intro c m; exact ⟨m, [], rfl, List.Chain.nil⟩
  | cons x xs ih =>
    intro c m
    by_cases hx : x = c
    · rw [runs_aux, if_pos hx]; exact ih c (m + 1)
    · obtain ⟨n, rest, e, hch⟩ := ih x 1
      rw [runs_aux, if_neg hx, e]
      exact ⟨m, (x, n) :: rest, rfl, List.Chain.cons (fun h => hx h.symm) hch⟩

theorem runs_chain (d : List Byte) :
    List.Chain' (fun r s : Byte × Nat => r.1 ≠ s.1) (runs d) := by
  cases d with
  | nil => exact List.chain'_nil
  | cons x xs =>
    obtain ⟨n, rest, e, hch⟩ := runs_aux_chain xs x 1
    rw [runs, e]
    exact hch

theorem records_rle_aux_chain : ∀ (xs : List Byte) (c : Byte) (n : Nat), n ≤ 255 →
    ∃ a rest, records (rle_aux xs c n) = (a, c) :: rest ∧
      List.Chain (fun r s : Byte × Byte => r.2 = s.2 → r.1.val = 255) (a, c) rest := by
  intro xs
  induction xs with
  | nil => intro c n _; exact ⟨to_char n, [], rfl, List.Chain.nil⟩
  | cons x xs ih =>
    intro c n hn
    by_cases hc : x = c ∧ n < 255
    · rw [rle_aux, if_pos hc]; exact ih c (n + 1) (by omega)
    · obtain ⟨a, rest, e, hch⟩ := ih x 1 (by omega)
      rw [rle_aux, if_neg hc, records, e]
      refine ⟨to_char n, (a, x) :: rest, rfl, List.Chain.cons (fun h => ?_) hch⟩
      have hn2 : n = 255 := by
        by_contra hne
        exact hc ⟨h.symm, by omega⟩
      rw [to_char_val n hn, hn2]

theorem records_rle_ref_chain (d : List Byte) :
    List.Chain' (fun r s : Byte × Byte => r.2 = s.2 → r.1.val = 255) (records (rle_ref d)) := by
  cases d with
  | nil => exact List.chain'_nil
  | cons x xs =>
    obtain ⟨a, rest, e, hch⟩ := records_rle_aux_chain xs x 1 (by omega)
    rw [rle_ref, e]
    exact hch


/-! ## Reads of a session whose buffer was written -/

/-- After a write of `data`, a read in compress mode delivers `rle_ref data`
when it fits the temporary buffer, the capacity and the destination. -/
theorem dev_read_written_compress (data ubuf : List Byte) (len : Nat)
    (hlen : data.length ≤ MAX_BUFFER_SIZE)
    (hfit : (rle_ref data).length ≤ MAX_BUFFER_SIZE)
    (hcap : (rle_ref data).length ≤ len) (hreg : (rle_ref data).length ≤ ubuf.length) :
    dev_read ⟨some ⟨some (data ++ List.replicate (MAX_BUFFER_SIZE - data.length) (0 : Byte)),
        data.length, .RLE_MODE_COMPRESS⟩⟩ ubuf len true =
      .ok (⟨some ⟨some (data ++ List.replicate (MAX_BUFFER_SIZE - data.length) (0 : Byte)),
        data.length, .RLE_MODE_COMPRESS⟩⟩, ((rle_ref data).length : Int),
        rle_ref data ++ ubuf.drop (rle_ref data).length) := by
  have hb := length_written data hlen
  have ht := take_written data (MAX_BUFFER_SIZE - data.length)
  obtain ⟨t1, e1, e2, e3⟩ := compress_rle_ok
    (data ++ List.replicate (MAX_BUFFER_SIZE - data.length) (0 : Byte)) data.length
    (List.replicate MAX_BUFFER_SIZE 0) (by rw [hb]; exact hlen)
    (by rw [ht, List.length_replicate]; exact hfit)
  rw [ht] at e1 e3
  rw [dev_read_eq _ data.length _ ubuf len hb]
  simp only [if_true, e1]
  have h1 : ¬ ((rle_ref data).length > len) := by omega
  have h2 : (rle_ref data).length ≤ t1.length := by
    rw [e2, List.length_replicate]; exact hfit
  have h3 : min (rle_ref data).length ubuf.length = (rle_ref data).length := by omega
  simp only [h1, if_false, copy_to_user, h2, if_true, h3, Nat.sub_self, ne_eq,
    not_true_eq_false, e3]

/-- After a write of `data`, a read in decompress mode delivers the first
`MAX_BUFFER_SIZE` bytes of `expand_pairs data` when they fit the capacity and
the destination. -/
theorem dev_read_written_decompress (data ubuf : List Byte) (len : Nat)
    (hlen : data.length ≤ MAX_BUFFER_SIZE)
    (hcap : min (expand_pairs data).length MAX_BUFFER_SIZE ≤ len)
    (hreg : min (expand_pairs data).length MAX_BUFFER_SIZE ≤ ubuf.length) :
    dev_read ⟨some ⟨some (data ++ List.replicate (MAX_BUFFER_SIZE - data.length) (0 : Byte)),
        data.length, .RLE_MODE_DECOMPRESS⟩⟩ ubuf len true =
      .ok (⟨some ⟨some (data ++ List.replicate (MAX_BUFFER_SIZE - data.length) (0 : Byte)),
        data.length, .RLE_MODE_DECOMPRESS⟩⟩,
        ((min (expand_pairs data).length MAX_BUFFER_SIZE : Nat) : Int),
        (expand_pairs data).take MAX_BUFFER_SIZE ++
          ubuf.drop (min (expand_pairs data).length MAX_BUFFER_SIZE)) := by
  have hb := length_written data hlen
  have ht := take_written data (MAX_BUFFER_SIZE - data.length)
  obtain ⟨t1, e1, e2, e3⟩ := decompress_rle_ok
    (data ++ List.replicate (MAX_BUFFER_SIZE - data.length) (0 : Byte)) data.length
    (List.replicate MAX_BUFFER_SIZE 0) (by rw [hb]; exact hlen)
    (by rw [List.length_replicate])
  rw [ht] at e1 e3
  rw [dev_read_eq _ data.length _ ubuf len hb]
  have hne : ¬ (rle_mode.RLE_MODE_DECOMPRESS = rle_mode.RLE_MODE_COMPRESS) := by decide
  simp only [hne, if_false, e1]
  have h1 : ¬ (min (expand_pairs data).length MAX_BUFFER_SIZE > len) := by omega
  have h2 : min (expand_pairs data).length MAX_BUFFER_SIZE ≤ t1.length := by
    rw [e2, List.length_replicate]; exact Nat.min_le_right _ _
  have h3 : min (min (expand_pairs data).length MAX_BUFFER_SIZE) ubuf.length =
      min (expand_pairs data).length MAX_BUFFER_SIZE := by
    omega
  simp only [h1, if_false, copy_to_user, h2, if_true, h3, Nat.sub_self, ne_eq,
    not_true_eq_false, e3]

/-- A read of the freshly opened session delivers nothing, whatever the
capacity and the destination. -/
theorem dev_read_fresh (ubuf : List Byte) (len : Nat) :
    dev_read ⟨some ⟨some (List.replicate MAX_BUFFER_SIZE (0 : Byte)), 0, .RLE_MODE_COMPRESS⟩⟩
        ubuf len true =
      .ok (⟨some ⟨some (List.replicate MAX_BUFFER_SIZE (0 : Byte)), 0, .RLE_MODE_COMPRESS⟩⟩,
        0, ubuf) := by
  have h := dev_read_written_compress [] ubuf len (Nat.zero_le _) (Nat.zero_le _)
    (Nat.zero_le _) (Nat.zero_le _)
  simpa [rle_ref] using h

theorem rle_ref_alternating_2049 :
    (rle_ref ((alternating 2049 0x41 0x42 ++
      List.replicate (MAX_BUFFER_SIZE - 2049) (0 : Byte)).take 2049)).length = 4098 := by
  have hl := length_alternating 2049 0x41 0x42
  have ht := take_written (alternating 2049 0x41 0x42) (MAX_BUFFER_SIZE - 2049)
  rw [hl] at ht
  rw [ht, length_rle_ref_alternating 2049 0x41 0x42 (by decide)]


/-! ## The session invariant -/

/-- C1: round trip.  For every byte sequence `d` of at most `MAX_BUFFER_SIZE`
bytes, `compress_rle` on `d` (into a buffer with room for two bytes per input
byte) returns a length `n` and an encoding, and `decompress_rle` on that
encoding (into a buffer of at least `MAX_BUFFER_SIZE` bytes) returns the length
of `d` and leaves exactly `d` at the start of its output. -/
theorem compress_decompress_round_trip (d out1 out2 : List Byte)
    (hd : d.length ≤ MAX_BUFFER_SIZE) (h1 : 2 * d.length ≤ out1.length)
    (h2 : MAX_BUFFER_SIZE ≤ out2.length) :
    ∃ n enc dec, compress_rle d d.length out1 = .ok (n, enc) ∧
      decompress_rle enc n out2 = .ok (d.length, dec) ∧
      dec.take d.length = d := by
  have hr := length_rle_ref_le d
  obtain ⟨enc, c1, c2, c3⟩ := compress_rle_ok d d.length out1 (le_refl _)
    (by rw [List.take_length]; omega)
  rw [List.take_length] at c1 c3
  obtain ⟨dec, d1, _, d3⟩ := decompress_rle_ok enc (rle_ref d).length out2
    (by rw [c2]; omega) h2
  rw [c3, expand_rle_ref, Nat.min_eq_left hd] at d1 d3
  refine ⟨(rle_ref d).length, enc, dec, c1, d1, ?_⟩
  rw [d3]
  exact List.take_of_length_le hd

theorem compress_decompress_round_trip_witness :
    ([0x41, 0x41, 0x41, 0x42] : List Byte).length ≤ MAX_BUFFER_SIZE ∧
    2 * ([0x41, 0x41, 0x41, 0x42] : List Byte).length ≤
      (List.replicate 8 (0 : Byte)).length ∧
    MAX_BUFFER_SIZE ≤ (List.replicate MAX_BUFFER_SIZE (0 : Byte)).length ∧
    ∃ n enc dec,
      compress_rle [0x41, 0x41, 0x41, 0x42] ([0x41, 0x41, 0x41, 0x42] : List Byte).length
        (List.replicate 8 (0 : Byte)) = .ok (n, enc) ∧
      decompress_rle enc n (List.replicate MAX_BUFFER_SIZE (0 : Byte)) =
        .ok (([0x41, 0x41, 0x41, 0x42] : List Byte).length, dec) ∧
      dec.take ([0x41, 0x41, 0x41, 0x42] : List Byte).length = [0x41, 0x41, 0x41, 0x42] :=
  ⟨by decide, by decide, by simp,
    compress_decompress_round_trip [0x41, 0x41, 0x41, 0x42] (List.replicate 8 0)
      (List.replicate MAX_BUFFER_SIZE 0) (by decide) (by decide) (by simp)⟩

/-- C2: for every input `d`, the encoding `compress_rle` produces has even
length, and every byte of it at an even offset (the count byte of a record),
read as an unsigned byte, lies in the range 1..255; no record has count 0. -/
theorem compress_rle_records (d out : List Byte) (h : 2 * d.length ≤ out.length) :
    ∃ n enc, compress_rle d d.length out = .ok (n, enc) ∧ n % 2 = 0 ∧ n ≤ enc.length ∧
      ∀ k, k < n → k % 2 = 0 → ∃ b, enc.get? k = some b ∧ 1 ≤ b.val ∧ b.val ≤ 255 := by
  have hr := length_rle_ref_le d
  obtain ⟨enc, c1, c2, c3⟩ := compress_rle_ok d d.length out (le_refl _)
    (by rw [List.take_length]; omega)
  rw [List.take_length] at c1 c3
  have hok := records_ok_rle_ref d
  refine ⟨(rle_ref d).length, enc, c1, hok.1, by rw [c2]; omega, ?_⟩
  intro k hk hev
  have hk2 : k < enc.length := by rw [c2]; omega
  have hget : (rle_ref d).get? k = enc.get? k := by
    rw [← c3]
    simp [List.getElem?_take, hk]
  refine ⟨enc[k], by simp [List.getElem?_eq_getElem hk2], ?_⟩
  apply hok.2 k enc[k] hev
  rw [hget]
  simp [List.getElem?_eq_getElem hk2]

theorem compress_rle_records_witness :
    2 * ([0x41, 0x41, 0x41, 0x42] : List Byte).length ≤ (List.replicate 8 (0 : Byte)).length ∧
    ∃ n enc,
      compress_rle [0x41, 0x41, 0x41, 0x42] ([0x41, 0x41, 0x41, 0x42] : List Byte).length
        (List.replicate 8 (0 : Byte)) = .ok (n, enc) ∧ n % 2 = 0 ∧ n ≤ enc.length ∧
      ∀ k, k < n → k % 2 = 0 → ∃ b, enc.get? k = some b ∧ 1 ≤ b.val ∧ b.val ≤ 255 :=
  ⟨by decide, compress_rle_records [0x41, 0x41, 0x41, 0x42] (List.replicate 8 0) (by decide)⟩

/-- C3 (failing input): the session holds 4096 valid bytes `A B A B ...` in
compress mode.  Their encoding is 8192 bytes long, and a read with capacity 8192
does not return it: `compress_rle` stores beyond the 4096 bytes of the temporary
buffer that `dev_read` allocates. -/
theorem dev_read_compress_overflow :
    (alternating 4096 0x41 0x42).length = MAX_BUFFER_SIZE ∧
    (∃ enc, compress_rle (alternating 4096 0x41 0x42) 4096 (List.replicate 8192 (0 : Byte)) =
      .ok (8192, enc)) ∧
    dev_read ⟨some ⟨some (alternating 4096 0x41 0x42), 4096, .RLE_MODE_COMPRESS⟩⟩
      (List.replicate 8192 (0 : Byte)) 8192 true = .error Fault.out_of_bounds := by
  have hl := length_alternating 4096 0x41 0x42
  have ht : (alternating 4096 0x41 0x42).take 4096 = alternating 4096 0x41 0x42 :=
    List.take_of_length_le (by rw [hl])
  have hr : (rle_ref ((alternating 4096 0x41 0x42).take 4096)).length = 8192 := by
    rw [ht, length_rle_ref_alternating 4096 0x41 0x42 (by decide)]
  refine ⟨hl, ?_, ?_⟩
  · obtain ⟨enc, c1, _, _⟩ := compress_rle_ok (alternating 4096 0x41 0x42) 4096
      (List.replicate 8192 0) (by rw [hl]) (by rw [hr, List.length_replicate])
    rw [hr] at c1
    exact ⟨enc, c1⟩
  · exact dev_read_compress_fault _ 4096 _ 8192 hl (by decide)
      (by rw [hr]; decide)

/-- C4: on an open session, `dev_write` returns `-EINVAL` exactly when `len`
exceeds `MAX_BUFFER_SIZE`, and then buffer, valid length and mode are unchanged;
a write of at most `MAX_BUFFER_SIZE` bytes from a readable region returns
`len`, so `len = 4096` succeeds and `len = 4097` fails. -/
theorem dev_write_einval_iff (buf : List Byte) (vl : Nat) (m : rle_mode)
    (buffer : List Byte) (len : Nat) (hbuf : buf.length = MAX_BUFFER_SIZE) :
    ∃ f1 r, dev_write ⟨some ⟨some buf, vl, m⟩⟩ buffer len = .ok (f1, r) ∧
      (r = -EINVAL ↔ MAX_BUFFER_SIZE < len) ∧
      (r = -EINVAL → f1 = ⟨some ⟨some buf, vl, m⟩⟩) ∧
      (len ≤ MAX_BUFFER_SIZE → len ≤ buffer.length → r = (len : Int)) := by
  rw [dev_write_eq buf vl m buffer len hbuf]
  by_cases h1 : len > MAX_BUFFER_SIZE
  · rw [if_pos h1]
    exact ⟨_, _, rfl, ⟨fun _ => h1, fun _ => rfl⟩, fun _ => rfl, fun h => by omega⟩
  · rw [if_neg h1]
    by_cases h2 : len - min len buffer.length ≠ 0
    · rw [if_pos h2]
      refine ⟨_, _, rfl, ⟨fun h => ?_, fun h => absurd h h1⟩, fun h => ?_, fun _ h => ?_⟩
      · simp [EINVAL, EFAULT] at h
      · simp [EINVAL, EFAULT] at h
      · omega
    · rw [if_neg h2]
      refine ⟨_, _, rfl, ⟨fun h => ?_, fun h => absurd h h1⟩, fun h => ?_, fun _ _ => rfl⟩
      · simp only [EINVAL] at h; omega
      · simp only [EINVAL] at h; omega

theorem dev_write_einval_iff_witness :
    (List.replicate MAX_BUFFER_SIZE (0 : Byte)).length = MAX_BUFFER_SIZE ∧
    ∃ f1 r, dev_write ⟨some ⟨some (List.replicate MAX_BUFFER_SIZE (0 : Byte)), 0,
          .RLE_MODE_COMPRESS⟩⟩ (List.replicate 4097 (0x41 : Byte)) 4097 = .ok (f1, r) ∧
      (r = -EINVAL ↔ MAX_BUFFER_SIZE < 4097) ∧
      (r = -EINVAL → f1 = ⟨some ⟨some (List.replicate MAX_BUFFER_SIZE (0 : Byte)), 0,
          .RLE_MODE_COMPRESS⟩⟩) ∧
      (4097 ≤ MAX_BUFFER_SIZE → 4097 ≤ (List.replicate 4097 (0x41 : Byte)).length →
        r = ((4097 : Nat) : Int)) :=
  ⟨List.length_replicate _ _,
    dev_write_einval_iff (List.replicate MAX_BUFFER_SIZE 0) 0 .RLE_MODE_COMPRESS
      (List.replicate 4097 0x41) 4097 (List.length_replicate _ _)⟩

/-- C5: on an open session, a write of a payload `data` of at most
`MAX_BUFFER_SIZE` bytes returns the length of `data` and leaves the buffer equal
to `data` followed by zero bytes up to `MAX_BUFFER_SIZE`, the valid length equal
to the length of `data`, and the mode unchanged; the new buffer does not depend
on the previous one. -/
theorem dev_write_replaces_buffer (buf : List Byte) (vl : Nat) (m : rle_mode) (data : List Byte)
    (hbuf : buf.length = MAX_BUFFER_SIZE) (hlen : data.length ≤ MAX_BUFFER_SIZE) :
    dev_write ⟨some ⟨some buf, vl, m⟩⟩ data data.length =
      .ok (⟨some ⟨some (data ++ List.replicate (MAX_BUFFER_SIZE - data.length) (0 : Byte)),
              data.length, m⟩⟩, (data.length : Int)) :=
  dev_write_ok buf vl m data hbuf hlen

theorem dev_write_replaces_buffer_witness :
    (List.replicate MAX_BUFFER_SIZE (0x5a : Byte)).length = MAX_BUFFER_SIZE ∧
    ([0x41, 0x42] : List Byte).length ≤ MAX_BUFFER_SIZE ∧
    dev_write ⟨some ⟨some (List.replicate MAX_BUFFER_SIZE (0x5a : Byte)), 7,
        .RLE_MODE_DECOMPRESS⟩⟩ [0x41, 0x42] ([0x41, 0x42] : List Byte).length =
      .ok (⟨some ⟨some ([0x41, 0x42] ++
              List.replicate (MAX_BUFFER_SIZE - ([0x41, 0x42] : List Byte).length) (0 : Byte)),
              ([0x41, 0x42] : List Byte).length, .RLE_MODE_DECOMPRESS⟩⟩,
           ((([0x41, 0x42] : List Byte).length : Nat) : Int)) :=
  ⟨List.length_replicate _ _, by decide,
    dev_write_replaces_buffer (List.replicate MAX_BUFFER_SIZE 0x5a) 7 .RLE_MODE_DECOMPRESS
      [0x41, 0x42] (List.length_replicate _ _) (by decide)⟩

/-- C6 (failing input): on a freshly opened session, write `"AAA"`, then write
the 4096 bytes `A B A B ...`.  Both writes succeed and the second payload has an
encoding of 8192 bytes, yet a read in compress mode with capacity 8192 does not
return it: `compress_rle` stores beyond the 4096-byte temporary buffer. -/
theorem write_write_read_overflow :
    ∃ f0 f1 f2, dev_open ⟨none⟩ true true = .ok (f0, 0) ∧
      dev_write f0 [0x41, 0x41, 0x41] 3 = .ok (f1, 3) ∧
      dev_write f1 (alternating 4096 0x41 0x42) 4096 = .ok (f2, 4096) ∧
      (∃ enc, compress_rle (alternating 4096 0x41 0x42) 4096
        (List.replicate 8192 (0 : Byte)) = .ok (8192, enc)) ∧
      dev_read f2 (List.replicate 8192 (0 : Byte)) 8192 true = .error Fault.out_of_bounds := by
  have hl := length_alternating 4096 0x41 0x42
  have hr : (rle_ref ((alternating 4096 0x41 0x42).take 4096)).length = 8192 := by
    rw [List.take_of_length_le (by rw [hl]),
      length_rle_ref_alternating 4096 0x41 0x42 (by decide)]
  refine ⟨_, _, _, dev_open_ok _,
    dev_write_ok _ 0 _ [0x41, 0x41, 0x41] (List.length_replicate _ _) (by decide),
    dev_write_full _ _ _ (length_written _ (by decide)), ?_, dev_read_after_full_write _ _⟩
  obtain ⟨enc, c1, _, _⟩ := compress_rle_ok (alternating 4096 0x41 0x42) 4096
    (List.replicate 8192 0) (by rw [hl]) (by rw [hr, List.length_replicate])
  rw [hr] at c1
  exact ⟨enc, c1⟩

/-- C8: on an open session, `dev_ioctl` with the command `RLE_SET_MODE` and
argument 0 returns 0 and sets the mode to compress, with argument 1 returns 0
and sets the mode to decompress, and with any other argument returns `-EINVAL`
and leaves the session as it is; the buffer and the valid length are the same
in all three cases. -/
theorem dev_ioctl_set_mode (dev : rle_dev) (arg : Nat) :
    dev_ioctl ⟨some dev⟩ RLE_SET_MODE arg =
      if arg = rle_mode.toNat .RLE_MODE_COMPRESS then
        .ok (⟨some ⟨dev.buffer, dev.buffer_size, .RLE_MODE_COMPRESS⟩⟩, 0)
      else if arg = rle_mode.toNat .RLE_MODE_DECOMPRESS then
        .ok (⟨some ⟨dev.buffer, dev.buffer_size, .RLE_MODE_DECOMPRESS⟩⟩, 0)
      else .ok (⟨some dev⟩, -EINVAL) :=
  dev_ioctl_eq dev arg

/-- C9 (failing input): a session is opened, set to decompress mode, and the
4096 bytes `A B A B ...` are written.  Setting the mode to compress succeeds,
but the read that follows does not return the 8192-byte encoding of the
payload: `compress_rle` stores beyond the 4096-byte temporary buffer. -/
theorem set_mode_read_overflow :
    ∃ f0 f1 f2 f3, dev_open ⟨none⟩ true true = .ok (f0, 0) ∧
      dev_ioctl f0 RLE_SET_MODE 1 = .ok (f1, 0) ∧
      dev_write f1 (alternating 4096 0x41 0x42) 4096 = .ok (f2, 4096) ∧
      dev_ioctl f2 RLE_SET_MODE 0 = .ok (f3, 0) ∧
      (∃ enc, compress_rle (alternating 4096 0x41 0x42) 4096
        (List.replicate 8192 (0 : Byte)) = .ok (8192, enc)) ∧
      dev_read f3 (List.replicate 8192 (0 : Byte)) 8192 true = .error Fault.out_of_bounds := by
  have hl := length_alternating 4096 0x41 0x42
  have hr : (rle_ref ((alternating 4096 0x41 0x42).take 4096)).length = 8192 := by
    rw [List.take_of_length_le (by rw [hl]),
      length_rle_ref_alternating 4096 0x41 0x42 (by decide)]
  refine ⟨_, _, _, _, dev_open_ok _, dev_ioctl_eq _ 1,
    dev_write_full _ _ _ (List.length_replicate _ _), dev_ioctl_eq _ 0, ?_,
    dev_read_after_full_write _ _⟩
  obtain ⟨enc, c1, _, _⟩ := compress_rle_ok (alternating 4096 0x41 0x42) 4096
    (List.replicate 8192 0) (by rw [hl]) (by rw [hr, List.length_replicate])
  rw [hr] at c1
  exact ⟨enc, c1⟩

/-- C10: with a destination of at least `MAX_BUFFER_SIZE` bytes, `decompress_rle`
returns `min MAX_BUFFER_SIZE total` and leaves the first that many bytes of
`expand_pairs input` at the start of its output, where `total` is the length of
`expand_pairs input`; the returned length never exceeds `MAX_BUFFER_SIZE`, it is
exactly `MAX_BUFFER_SIZE` when `total` is larger, and the output is a prefix of
the whole expansion.  No error is reported. -/
theorem decompress_rle_truncates (input out : List Byte)
    (h : MAX_BUFFER_SIZE ≤ out.length) :
    ∃ dec, decompress_rle input input.length out =
        .ok (min MAX_BUFFER_SIZE (expand_pairs input).length, dec) ∧
      dec.take (min MAX_BUFFER_SIZE (expand_pairs input).length) =
        (expand_pairs input).take (min MAX_BUFFER_SIZE (expand_pairs input).length) ∧
      min MAX_BUFFER_SIZE (expand_pairs input).length ≤ MAX_BUFFER_SIZE ∧
      (MAX_BUFFER_SIZE < (expand_pairs input).length →
        min MAX_BUFFER_SIZE (expand_pairs input).length = MAX_BUFFER_SIZE) ∧
      dec.take (min MAX_BUFFER_SIZE (expand_pairs input).length) <+: expand_pairs input := by
  obtain ⟨dec, d1, _, d3⟩ := decompress_rle_ok input input.length out (le_refl _) h
  rw [List.take_length, Nat.min_comm] at d1 d3
  have d4 : dec.take (min MAX_BUFFER_SIZE (expand_pairs input).length) =
      (expand_pairs input).take (min MAX_BUFFER_SIZE (expand_pairs input).length) := by
    rw [d3, List.take_eq_take]
    omega
  refine ⟨dec, d1, d4, Nat.min_le_left _ _, fun hlt => by omega, ?_⟩
  rw [d4]
  exact List.take_prefix _ _

theorem decompress_rle_truncates_witness :
    MAX_BUFFER_SIZE ≤ (List.replicate MAX_BUFFER_SIZE (0 : Byte)).length ∧
    ∃ dec, decompress_rle (List.replicate 40 (255 : Byte))
        (List.replicate 40 (255 : Byte)).length
        (List.replicate MAX_BUFFER_SIZE (0 : Byte)) =
        .ok (min MAX_BUFFER_SIZE (expand_pairs (List.replicate 40 (255 : Byte))).length, dec) ∧
      dec.take (min MAX_BUFFER_SIZE (expand_pairs (List.replicate 40 (255 : Byte))).length) =
        (expand_pairs (List.replicate 40 (255 : Byte))).take
          (min MAX_BUFFER_SIZE (expand_pairs (List.replicate 40 (255 : Byte))).length) ∧
      min MAX_BUFFER_SIZE (expand_pairs (List.replicate 40 (255 : Byte))).length ≤
        MAX_BUFFER_SIZE ∧
      (MAX_BUFFER_SIZE < (expand_pairs (List.replicate 40 (255 : Byte))).length →
        min MAX_BUFFER_SIZE (expand_pairs (List.replicate 40 (255 : Byte))).length =
          MAX_BUFFER_SIZE) ∧
      dec.take (min MAX_BUFFER_SIZE (expand_pairs (List.replicate 40 (255 : Byte))).length) <+:
        expand_pairs (List.replicate 40 (255 : Byte)) :=
  ⟨by simp, decompress_rle_truncates (List.replicate 40 (255 : Byte))
    (List.replicate MAX_BUFFER_SIZE 0) (by simp)⟩

/-- C11: `decompress_rle` ignores an incomplete trailing pair.  For every
even-length byte sequence `p` and every byte `b`, decompressing `p ++ [b]`
returns the same length and the same output bytes as decompressing `p`; and
decompressing a single byte returns length 0 and stores nothing. -/
theorem decompress_rle_ignores_trailing_byte (p : List Byte) (b : Byte) (out : List Byte)
    (hp : p.length % 2 = 0) (hout : MAX_BUFFER_SIZE ≤ out.length) :
    (∃ n dec1 dec2, decompress_rle (p ++ [b]) (p ++ [b]).length out = .ok (n, dec1) ∧
      decompress_rle p p.length out = .ok (n, dec2) ∧ dec1.take n = dec2.take n) ∧
    decompress_rle [b] ([b] : List Byte).length out = .ok (0, out) := by
  constructor
  · obtain ⟨dec1, a1, _, a3⟩ := decompress_rle_ok (p ++ [b]) (p ++ [b]).length out (le_refl _) hout
    obtain ⟨dec2, b1, _, b3⟩ := decompress_rle_ok p p.length out (le_refl _) hout
    rw [List.take_length, expand_pairs_append_single p b hp] at a1 a3
    rw [List.take_length] at b1 b3
    exact ⟨_, dec1, dec2, a1, b1, by rw [a3, b3]⟩
  · simp [decompress_rle, decompress_loop]

theorem decompress_rle_ignores_trailing_byte_witness :
    ([3, 0x41, 2, 0x42] : List Byte).length % 2 = 0 ∧
    MAX_BUFFER_SIZE ≤ (List.replicate MAX_BUFFER_SIZE (0 : Byte)).length ∧
    ((∃ n dec1 dec2, decompress_rle ([3, 0x41, 2, 0x42] ++ [7])
        (([3, 0x41, 2, 0x42] : List Byte) ++ [7]).length
        (List.replicate MAX_BUFFER_SIZE (0 : Byte)) = .ok (n, dec1) ∧
      decompress_rle [3, 0x41, 2, 0x42] ([3, 0x41, 2, 0x42] : List Byte).length
        (List.replicate MAX_BUFFER_SIZE (0 : Byte)) = .ok (n, dec2) ∧
      dec1.take n = dec2.take n) ∧
    decompress_rle [7] ([7] : List Byte).length (List.replicate MAX_BUFFER_SIZE (0 : Byte)) =
      .ok (0, List.replicate MAX_BUFFER_SIZE (0 : Byte))) :=
  ⟨by decide, by simp,
    decompress_rle_ignores_trailing_byte [3, 0x41, 2, 0x42] 7
      (List.replicate MAX_BUFFER_SIZE 0) (by decide) (by simp)⟩

/-- C12: for every input `d`, the length `compress_rle` returns is at most
`2 * len(d)`; it equals `2 * len(d)` exactly when no two adjacent bytes of `d`
are equal, and it is smaller when `d` has a pair of equal adjacent bytes. -/
theorem compress_rle_size_bound (d out : List Byte) (h : 2 * d.length ≤ out.length) :
    ∃ n enc, compress_rle d d.length out = .ok (n, enc) ∧ n ≤ 2 * d.length ∧
      (n = 2 * d.length ↔ List.Chain' (· ≠ ·) d) ∧
      (¬ List.Chain' (· ≠ ·) d → n < 2 * d.length) := by
  have hr := length_rle_ref_le d
  obtain ⟨enc, c1, _, _⟩ := compress_rle_ok d d.length out (le_refl _)
    (by rw [List.take_length]; omega)
  rw [List.take_length] at c1
  have hiff := length_rle_ref_eq_iff d
  refine ⟨_, enc, c1, hr, hiff, fun hn => ?_⟩
  have : (rle_ref d).length ≠ 2 * d.length := fun e => hn (hiff.1 e)
  omega

theorem compress_rle_size_bound_witness :
    2 * ([0x41, 0x41, 0x42] : List Byte).length ≤ (List.replicate 6 (0 : Byte)).length ∧
    ∃ n enc, compress_rle [0x41, 0x41, 0x42] ([0x41, 0x41, 0x42] : List Byte).length
        (List.replicate 6 (0 : Byte)) = .ok (n, enc) ∧
      n ≤ 2 * ([0x41, 0x41, 0x42] : List Byte).length ∧
      (n = 2 * ([0x41, 0x41, 0x42] : List Byte).length ↔
        List.Chain' (· ≠ ·) ([0x41, 0x41, 0x42] : List Byte)) ∧
      (¬ List.Chain' (· ≠ ·) ([0x41, 0x41, 0x42] : List Byte) →
        n < 2 * ([0x41, 0x41, 0x42] : List Byte).length) :=
  ⟨by decide, compress_rle_size_bound [0x41, 0x41, 0x42] (List.replicate 6 0) (by decide)⟩


/-- C18: `compress_rle` equals the maximal-run reference.  For every input `d`
the bytes it stores are `encode_runs d`: over the maximal runs of `d`, left to
right, `n / 255` records `(255, v)` followed by one record `(n % 255, v)` when
`n % 255` is not zero.  The runs are the maximal runs: their concatenation is
`d`, each has length at least 1, and neighbouring runs have different values.
Two consecutive output records carry the same value only if the first has
count 255. -/
theorem compress_rle_maximal_runs (d out : List Byte) (h : 2 * d.length ≤ out.length) :
    ∃ n enc, compress_rle d d.length out = .ok (n, enc) ∧
      enc.take n = encode_runs d ∧
      (runs d).flatMap (fun r => List.replicate r.2 r.1) = d ∧
      (∀ r ∈ runs d, 1 ≤ r.2) ∧
      List.Chain' (fun r s : Byte × Nat => r.1 ≠ s.1) (runs d) ∧
      List.Chain' (fun r s : Byte × Byte => r.2 = s.2 → r.1.val = 255)
        (records (enc.take n)) := by
  have hr := length_rle_ref_le d
  obtain ⟨enc, c1, _, c3⟩ := compress_rle_ok d d.length out (le_refl _)
    (by rw [List.take_length]; omega)
  rw [List.take_length] at c1 c3
  refine ⟨_, enc, c1, ?_, flatten_runs d, runs_pos d, runs_chain d, ?_⟩
  · rw [c3]; exact rle_ref_eq_encode_runs d
  · rw [c3]; exact records_rle_ref_chain d

set_option maxRecDepth 100000 in
theorem compress_rle_maximal_runs_witness :
    2 * (List.replicate 256 (0x41 : Byte)).length ≤ (List.replicate 512 (0 : Byte)).length ∧
    encode_runs (List.replicate 256 (0x41 : Byte)) = [255, 0x41, 1, 0x41] ∧
    encode_runs [0x41] = [1, 0x41] ∧
    ∃ n enc, compress_rle (List.replicate 256 (0x41 : Byte))
        (List.replicate 256 (0x41 : Byte)).length (List.replicate 512 (0 : Byte)) =
        .ok (n, enc) ∧
      enc.take n = encode_runs (List.replicate 256 (0x41 : Byte)) ∧
      (runs (List.replicate 256 (0x41 : Byte))).flatMap (fun r => List.replicate r.2 r.1) =
        List.replicate 256 (0x41 : Byte) ∧
      (∀ r ∈ runs (List.replicate 256 (0x41 : Byte)), 1 ≤ r.2) ∧
      List.Chain' (fun r s : Byte × Nat => r.1 ≠ s.1) (runs (List.replicate 256 (0x41 : Byte))) ∧
      List.Chain' (fun r s : Byte × Byte => r.2 = s.2 → r.1.val = 255)
        (records (enc.take n)) :=
  ⟨by simp, by decide, by decide,
    compress_rle_maximal_runs (List.replicate 256 0x41) (List.replicate 512 0) (by simp)⟩


/-- C13 (failing input): a successful `dev_open` leaves valid length 0, compress
mode and `MAX_BUFFER_SIZE` zero bytes, and a read right after it returns 0 and
delivers nothing, whatever the capacity.  But for the payload `d` of 4096 bytes
`A B A B ...`, write then read with capacity 8192 does not return the 8192-byte
encoding of `d`: `compress_rle` stores beyond the 4096-byte temporary buffer. -/
theorem open_write_read_overflow :
    dev_open ⟨none⟩ true true =
      .ok (⟨some ⟨some (List.replicate MAX_BUFFER_SIZE (0 : Byte)), 0, .RLE_MODE_COMPRESS⟩⟩, 0) ∧
    (∀ (ubuf : List Byte) (len : Nat),
      dev_read ⟨some ⟨some (List.replicate MAX_BUFFER_SIZE (0 : Byte)), 0, .RLE_MODE_COMPRESS⟩⟩
        ubuf len true =
      .ok (⟨some ⟨some (List.replicate MAX_BUFFER_SIZE (0 : Byte)), 0, .RLE_MODE_COMPRESS⟩⟩,
        0, ubuf)) ∧
    ∃ f1, dev_write
        ⟨some ⟨some (List.replicate MAX_BUFFER_SIZE (0 : Byte)), 0, .RLE_MODE_COMPRESS⟩⟩
        (alternating 4096 0x41 0x42) 4096 = .ok (f1, 4096) ∧
      (∃ enc, compress_rle (alternating 4096 0x41 0x42) 4096
        (List.replicate 8192 (0 : Byte)) = .ok (8192, enc)) ∧
      dev_read f1 (List.replicate 8192 (0 : Byte)) 8192 true = .error Fault.out_of_bounds := by
  have hl := length_alternating 4096 0x41 0x42
  have hr : (rle_ref ((alternating 4096 0x41 0x42).take 4096)).length = 8192 := by
    rw [List.take_of_length_le (by rw [hl]),
      length_rle_ref_alternating 4096 0x41 0x42 (by decide)]
  refine ⟨dev_open_ok _, dev_read_fresh, _,
    dev_write_full _ _ _ (List.length_replicate _ _), ?_, dev_read_after_full_write _ _⟩
  obtain ⟨enc, c1, _, _⟩ := compress_rle_ok (alternating 4096 0x41 0x42) 4096
    (List.replicate 8192 0) (by rw [hl]) (by rw [hr, List.length_replicate])
  rw [hr] at c1
  exact ⟨enc, c1⟩

/-- C14: on an open session in compress mode, a write of `"AAABBBCC"` returns 8
and a following read with capacity at least 6 returns 6 and delivers exactly the
bytes `03 41 03 42 02 43`. -/
theorem encode_scenario (buf : List Byte) (vl : Nat) (ubuf : List Byte) (len : Nat)
    (hbuf : buf.length = MAX_BUFFER_SIZE) (hcap : 6 ≤ len) (hreg : len ≤ ubuf.length) :
    ∃ f1, dev_write ⟨some ⟨some buf, vl, .RLE_MODE_COMPRESS⟩⟩
        [0x41, 0x41, 0x41, 0x42, 0x42, 0x42, 0x43, 0x43] 8 = .ok (f1, 8) ∧
      dev_read f1 ubuf len true =
        .ok (f1, 6, [0x03, 0x41, 0x03, 0x42, 0x02, 0x43] ++ ubuf.drop 6) :=
  ⟨_, dev_write_ok buf vl _ [0x41, 0x41, 0x41, 0x42, 0x42, 0x42, 0x43, 0x43] hbuf (by decide),
    dev_read_written_compress [0x41, 0x41, 0x41, 0x42, 0x42, 0x42, 0x43, 0x43] ubuf len
      (by decide) (by decide) hcap (Nat.le_trans hcap hreg)⟩

theorem encode_scenario_witness :
    (List.replicate MAX_BUFFER_SIZE (0 : Byte)).length = MAX_BUFFER_SIZE ∧ 6 ≤ 6 ∧
    6 ≤ (List.replicate 6 (0xff : Byte)).length ∧
    ∃ f1, dev_write ⟨some ⟨some (List.replicate MAX_BUFFER_SIZE (0 : Byte)), 0,
          .RLE_MODE_COMPRESS⟩⟩
        [0x41, 0x41, 0x41, 0x42, 0x42, 0x42, 0x43, 0x43] 8 = .ok (f1, 8) ∧
      dev_read f1 (List.replicate 6 (0xff : Byte)) 6 true =
        .ok (f1, 6, [0x03, 0x41, 0x03, 0x42, 0x02, 0x43] ++
          (List.replicate 6 (0xff : Byte)).drop 6) :=
  ⟨List.length_replicate _ _, by decide, by decide,
    encode_scenario (List.replicate MAX_BUFFER_SIZE 0) 0 (List.replicate 6 0xff) 6
      (List.length_replicate _ _) (by decide) (by decide)⟩

/-- C15: on an open session, after `RLE_SET_MODE` with argument 1, a write of
the six bytes `03 41 03 42 02 43` returns 6 and a following read with capacity
at least 8 returns 8 and delivers exactly `"AAABBBCC"`; and `decompress_rle` on
the four bytes `03 41 03 42` returns 6 and stores `"AAABBB"`. -/
theorem decode_scenario (buf : List Byte) (vl : Nat) (m : rle_mode) (ubuf : List Byte)
    (len : Nat) (out : List Byte)
    (hbuf : buf.length = MAX_BUFFER_SIZE) (hcap : 8 ≤ len) (hreg : len ≤ ubuf.length)
    (hout : MAX_BUFFER_SIZE ≤ out.length) :
    (∃ f1 f2, dev_ioctl ⟨some ⟨some buf, vl, m⟩⟩ RLE_SET_MODE 1 = .ok (f1, 0) ∧
      dev_write f1 [0x03, 0x41, 0x03, 0x42, 0x02, 0x43] 6 = .ok (f2, 6) ∧
      dev_read f2 ubuf len true =
        .ok (f2, 8, [0x41, 0x41, 0x41, 0x42, 0x42, 0x42, 0x43, 0x43] ++ ubuf.drop 8)) ∧
    ∃ dec, decompress_rle [0x03, 0x41, 0x03, 0x42] 4 out = .ok (6, dec) ∧
      dec.take 6 = [0x41, 0x41, 0x41, 0x42, 0x42, 0x42] := by
  constructor
  · exact ⟨_, _, dev_ioctl_eq _ 1,
      dev_write_ok buf vl _ [0x03, 0x41, 0x03, 0x42, 0x02, 0x43] hbuf (by decide),
      dev_read_written_decompress [0x03, 0x41, 0x03, 0x42, 0x02, 0x43] ubuf len
        (by decide) hcap (Nat.le_trans hcap hreg)⟩
  · obtain ⟨dec, d1, _, d3⟩ := decompress_rle_ok [0x03, 0x41, 0x03, 0x42] 4 out (by decide) hout
    exact ⟨dec, d1, d3⟩

theorem decode_scenario_witness :
    (List.replicate MAX_BUFFER_SIZE (0 : Byte)).length = MAX_BUFFER_SIZE ∧ 8 ≤ 8 ∧
    8 ≤ (List.replicate 8 (0 : Byte)).length ∧
    MAX_BUFFER_SIZE ≤ (List.replicate MAX_BUFFER_SIZE (0 : Byte)).length ∧
    ((∃ f1 f2, dev_ioctl ⟨some ⟨some (List.replicate MAX_BUFFER_SIZE (0 : Byte)), 0,
          .RLE_MODE_COMPRESS⟩⟩ RLE_SET_MODE 1 = .ok (f1, 0) ∧
      dev_write f1 [0x03, 0x41, 0x03, 0x42, 0x02, 0x43] 6 = .ok (f2, 6) ∧
      dev_read f2 (List.replicate 8 (0 : Byte)) 8 true =
        .ok (f2, 8, [0x41, 0x41, 0x41, 0x42, 0x42, 0x42, 0x43, 0x43] ++
          (List.replicate 8 (0 : Byte)).drop 8)) ∧
    ∃ dec, decompress_rle [0x03, 0x41, 0x03, 0x42] 4
        (List.replicate MAX_BUFFER_SIZE (0 : Byte)) = .ok (6, dec) ∧
      dec.take 6 = [0x41, 0x41, 0x41, 0x42, 0x42, 0x42]) :=
  ⟨List.length_replicate _ _, by decide, by decide, by simp,
    decode_scenario (List.replicate MAX_BUFFER_SIZE 0) 0 .RLE_MODE_COMPRESS
      (List.replicate 8 0) 8 (List.replicate MAX_BUFFER_SIZE 0)
      (List.length_replicate _ _) (by decide) (by decide) (by simp)⟩

/-- C16: `compress_rle` and `decompress_rle` on the empty input return 0 and
store nothing; and on an open session in either mode a write of the empty
payload returns 0 and a following read returns 0 and delivers nothing, whatever
the capacity (0 included) and the destination. -/
theorem empty_payload (buf : List Byte) (vl : Nat) (m : rle_mode) (ubuf : List Byte)
    (len : Nat) (out : List Byte) (hbuf : buf.length = MAX_BUFFER_SIZE) :
    compress_rle [] 0 out = .ok (0, out) ∧ decompress_rle [] 0 out = .ok (0, out) ∧
    ∃ f1, dev_write ⟨some ⟨some buf, vl, m⟩⟩ [] 0 = .ok (f1, 0) ∧
      dev_read f1 ubuf len true = .ok (f1, 0, ubuf) := by
  refine ⟨rfl, rfl, _, dev_write_ok buf vl m [] hbuf (Nat.zero_le _), ?_⟩
  cases m with
  | RLE_MODE_COMPRESS =>
    have h := dev_read_written_compress [] ubuf len (Nat.zero_le _) (Nat.zero_le _)
      (Nat.zero_le _) (Nat.zero_le _)
    simpa [rle_ref] using h
  | RLE_MODE_DECOMPRESS =>
    have h := dev_read_written_decompress [] ubuf len (Nat.zero_le _) (Nat.zero_le _)
      (Nat.zero_le _)
    simpa [expand_pairs] using h

theorem empty_payload_witness :
    (List.replicate MAX_BUFFER_SIZE (0x5a : Byte)).length = MAX_BUFFER_SIZE ∧
    compress_rle [] 0 [] = .ok (0, []) ∧ decompress_rle [] 0 [] = .ok (0, []) ∧
    ∃ f1, dev_write ⟨some ⟨some (List.replicate MAX_BUFFER_SIZE (0x5a : Byte)), 9,
          .RLE_MODE_DECOMPRESS⟩⟩ [] 0 = .ok (f1, 0) ∧
      dev_read f1 [] 0 true = .ok (f1, 0, []) :=
  ⟨List.length_replicate _ _,
    empty_payload (List.replicate MAX_BUFFER_SIZE 0x5a) 9 .RLE_MODE_DECOMPRESS [] 0 []
      (List.length_replicate _ _)⟩

/-- C20 (failing input): the session buffer holds the 2049 valid bytes
`A B A B ...` (valid length 2049, at most `MAX_BUFFER_SIZE`).  With enough room
`compress_rle` returns 4098, more than `MAX_BUFFER_SIZE`; on a buffer of
`MAX_BUFFER_SIZE` bytes, as `dev_read` allocates, it stores at index 4096,
outside the buffer. -/
theorem compress_rle_exceeds_temp_buffer :
    (alternating 2049 0x41 0x42 ++
      List.replicate (MAX_BUFFER_SIZE - 2049) (0 : Byte)).length = MAX_BUFFER_SIZE ∧
    2049 ≤ MAX_BUFFER_SIZE ∧
    (∃ enc, compress_rle (alternating 2049 0x41 0x42 ++
        List.replicate (MAX_BUFFER_SIZE - 2049) (0 : Byte)) 2049
        (List.replicate 8192 (0 : Byte)) = .ok (4098, enc)) ∧
    MAX_BUFFER_SIZE < 4098 ∧
    compress_rle (alternating 2049 0x41 0x42 ++
        List.replicate (MAX_BUFFER_SIZE - 2049) (0 : Byte)) 2049
        (List.replicate MAX_BUFFER_SIZE (0 : Byte)) = .error Fault.out_of_bounds := by
  have hl := length_alternating 2049 0x41 0x42
  have hb : (alternating 2049 0x41 0x42 ++
      List.replicate (MAX_BUFFER_SIZE - 2049) (0 : Byte)).length = MAX_BUFFER_SIZE := by
    have := length_written (alternating 2049 0x41 0x42) (by rw [hl]; decide)
    rw [hl] at this; exact this
  have hr := rle_ref_alternating_2049
  refine ⟨hb, by decide, ?_, by decide, ?_⟩
  · obtain ⟨enc, c1, _, _⟩ := compress_rle_ok (alternating 2049 0x41 0x42 ++
        List.replicate (MAX_BUFFER_SIZE - 2049) (0 : Byte)) 2049 (List.replicate 8192 0)
      (by rw [hb]; decide) (by rw [hr, List.length_replicate]; decide)
    rw [hr] at c1
    exact ⟨enc, c1⟩
  · exact compress_rle_fault _ 2049 _ (by rw [hb]; decide)
      (by rw [hr, List.length_replicate]; decide)


end RLE
